import Mathlib

/-!
# Verification of the forward-chaining production system

Shallow embedding of `production_system.py`: term unification (`unify`,
`unify_var`), the backtracking matcher (`match_rules`), activation keys
(`get_activation_key`), conflict resolution (`select_rule`), consequent
instantiation (`instantiate`) and the engine loop (`run_ps`).

Python terms are strings or tuples of terms; a variable is a string whose
first character is `?`.  Binding environments are insertion-ordered
dictionaries with unique keys, embedded as association lists (lookup takes
the first hit).  Python's `unify` can recurse forever on cyclic variable
chains, so the unifier is embedded with an explicit fuel argument:
`none` means the recursion budget ran out (the Python call would still be
running), `some none` models Python's `None` (failure), and
`some (some e)` a successful extended environment.
-/

namespace PS

/-- A Python term: a string atom or a tuple of terms. -/
inductive PTerm where
  | str (s : String)
  | tup (ts : List PTerm)

mutual

/-- Boolean equality of terms (tuples compare elementwise). -/
def PTerm.beq : PTerm → PTerm → Bool
  | .str a, .str b => a == b
  | .tup as, .tup bs => PTerm.beqL as bs
  | _, _ => false
termination_by structural a => a

/-- Boolean equality of term lists. -/
def PTerm.beqL : List PTerm → List PTerm → Bool
  | [], [] => true
  | a :: as, b :: bs => PTerm.beq a b && PTerm.beqL as bs
  | _, _ => false
termination_by structural as => as

end

theorem PTerm.beq_iff : ∀ a b : PTerm, PTerm.beq a b = true ↔ a = b := by
  apply @PTerm.rec (fun a => ∀ b, PTerm.beq a b = true ↔ a = b)
    (fun as => ∀ bs, PTerm.beqL as bs = true ↔ as = bs)
  · intro s b
    cases b with
    | str s2 => simp [PTerm.beq]
    | tup _ => simp [PTerm.beq]
  · intro ts ih b
    cases b with
    | str _ => simp [PTerm.beq]
    | tup bs => simp [PTerm.beq, ih bs]
  · intro bs
    cases bs <;> simp [PTerm.beqL]
  · intro a as iha ihas bs
    cases bs with
    | nil => simp [PTerm.beqL]
    | cons b bs2 => simp [PTerm.beqL, Bool.and_eq_true, iha, ihas]

instance : DecidableEq PTerm :=
  fun a b => decidable_of_iff (PTerm.beq a b = true) (PTerm.beq_iff a b)

/-- Decidable equality for `Except`, used to evaluate `run_ps` results. -/
instance {e a : Type} [DecidableEq e] [DecidableEq a] : DecidableEq (Except e a)
  | .ok x, .ok y =>
    if h : x = y then .isTrue (by rw [h]) else .isFalse (by intro hh; cases hh; exact h rfl)
  | .error x, .error y =>
    if h : x = y then .isTrue (by rw [h]) else .isFalse (by intro hh; cases hh; exact h rfl)
  | .ok _, .error _ => .isFalse (by intro h; cases h)
  | .error _, .ok _ => .isFalse (by intro h; cases h)

/-- `is_var`: variables are strings starting with `?`. -/
def is_var : PTerm → Bool
  | .str s =>
    match s.data with
    | '?' :: _ => true
    | _ => false
  | .tup _ => false

/-- A binding environment: insertion-ordered map from variable names to terms. -/
abbrev Env := List (String × PTerm)

/-- Python `var in bindings` / `bindings[var]`: first hit in the assoc list. -/
def lookupB (e : Env) (v : String) : Option PTerm :=
  match e with
  | [] => none
  | (k, t) :: rest => if k = v then some t else lookupB rest v

/-- Result of a fueled unification: `none` = fuel exhausted (Python still
recursing), `some none` = unification failure, `some (some e)` = success. -/
abbrev URes := Option (Option Env)

/-- Body of `unify_var(var, val, bindings)`, abstracted over the recursive
call `u` into `unify` (one fuel level down).  `v` is known to be a variable
string term when called. -/
def unifyVarAux (u : PTerm → PTerm → Env → URes) : PTerm → PTerm → Env → URes
  | .str v, t, e =>
    if .str v = t then some (some e)
    else
      match lookupB e v with
      | some b => u b t e
      | none =>
        match t with
        | .str s =>
          if is_var (.str s) then
            match lookupB e s with
            | some tb => u (.str v) tb e
            | none => some (some (e ++ [(v, t)]))
          else some (some (e ++ [(v, t)]))
        | _ => some (some (e ++ [(v, t)]))
  | .tup _, _, e => some (some e)

/-- Elementwise unification of two equal-length tuples, threading the
environment left to right; the first failure fails the whole compound.
`u` is the recursive call into `unify`, one fuel level down. -/
def unifyListAux (u : PTerm → PTerm → Env → URes) : List PTerm → List PTerm → Env → URes
  | [], [], e => some (some e)
  | p :: ps, t :: ts, e =>
    match u p t e with
    | none => none
    | some none => some none
    | some (some e2) => unifyListAux u ps ts e2
  | _, _, _ => some none

/-- `unify(pattern, fact, bindings)` from the source, with explicit fuel.
The `bindings is None` entry case of the Python code is represented by the
failure value `some none` short-circuiting in the callers instead. -/
def unify : Nat → PTerm → PTerm → Env → URes
  | 0, _, _, _ => none
  | g + 1, p, t, e =>
    if p = t then some (some e)
    else if is_var p then unifyVarAux (unify g) p t e
    else if is_var t then unifyVarAux (unify g) t p e
    else
      match p, t with
      | .tup ps, .tup ts =>
          if ps.length = ts.length then unifyListAux (unify g) ps ts e else some none
      | _, _ => some none

/-- `unify_var(var, val, bindings)` from the source, at fuel `g` for its
recursive unifications. -/
def unify_var (g : Nat) : PTerm → PTerm → Env → URes :=
  unifyVarAux (unify g)

/-- `instantiate(pattern, bindings)`: fill bound variables of a consequent
template; any term that is not a variable (including nested tuples) and any
unbound variable is kept verbatim. -/
def instantiate (pattern : List PTerm) (bindings : Env) : PTerm :=
  .tup (pattern.map fun term =>
    if is_var term then
      match term with
      | .str s => (lookupB bindings s).getD term
      | t => t
    else term)

/-- A production rule: name, antecedent conditions, consequent templates and
priority (`class Rule` of the source). -/
structure Rule where
  name : String
  lhs : List PTerm
  rhs : List (List PTerm)
  priority : Int

/-- The `for fact in wm` loop inside `match_rules`: try the first condition
`c` against each remaining fact, recursing (via `mrest`, the matcher on the
remaining conditions) after each success and concatenating the downstream
results.  `u` is the fueled unifier. -/
def matchFactsAux (u : PTerm → PTerm → Env → URes)
    (mrest : Env → List PTerm → Option (List (Env × List PTerm))) (c : PTerm) :
    List PTerm → Env → List PTerm → Option (List (Env × List PTerm))
  | [], _, _ => some []
  | fact :: facts, bindings, supports =>
    match u c fact bindings with
    | none => none
    | some none => matchFactsAux u mrest c facts bindings supports
    | some (some nb) =>
      match mrest nb (supports ++ [fact]) with
      | none => none
      | some rs =>
        match matchFactsAux u mrest c facts bindings supports with
        | none => none
        | some rs2 => some (rs ++ rs2)

/-- `match_rules(lhs, wm, bindings, supports)`: DFS over the condition list,
returning every `(bindings, supports)` pair (in working-memory order for
each condition).  The unifier fuel `uf` is threaded to every `unify` call;
`none` means some unification ran out of fuel (the Python run would still
be recursing). -/
def match_rules (uf : Nat) :
    List PTerm → List PTerm → Env → List PTerm → Option (List (Env × List PTerm))
  | [], _, bindings, supports => some [(bindings, supports)]
  | c :: rest, wm, bindings, supports =>
    matchFactsAux (unify uf) (fun nb sup => match_rules uf rest wm nb sup) c wm bindings supports

/-- Python string `<` on the underlying code points. -/
def strLtL : List Char → List Char → Bool
  | [], [] => false
  | [], _ :: _ => true
  | _ :: _, [] => false
  | a :: as, b :: bs =>
    if a.toNat < b.toNat then true
    else if b.toNat < a.toNat then false
    else strLtL as bs

/-- Python string `<`: lexicographic comparison of code points. -/
def strLt (a b : String) : Bool := strLtL a.data b.data

/-- Insertion of one pair into a key-sorted association list. -/
def insertPair (p : String × PTerm) : Env → Env
  | [] => [p]
  | q :: rest => if strLt p.1 q.1 then p :: q :: rest else q :: insertPair p rest

/-- `sorted(bindings.items())`: the environment sorted by variable name
(keys are unique, so comparing keys decides the order). -/
def sortPairs : Env → Env
  | [] => []
  | p :: rest => insertPair p (sortPairs rest)

/-- An activation key.  Python uses `(id(rule), tuple(sorted(...)))`; rule
objects are identified here by their declaration index in the rule list,
which coincides with `id`-identity for lists of distinct rule objects. -/
abbrev AKey := Nat × Env

/-- `get_activation_key(rule, bindings)` with the rule's declaration index
standing for its object identity. -/
def get_activation_key (i : Nat) (bindings : Env) : AKey :=
  (i, sortPairs bindings)

/-- An agenda item `(rule, bindings, supports, index, key)`. -/
structure Act where
  rule : Rule
  bindings : Env
  supports : List PTerm
  idx : Nat
  key : AKey

/-- Sort key used by the `"priority"` strategy. -/
def prioKey (a : Act) : Int × Int × Int :=
  (a.rule.priority, (a.rule.lhs.length : Int), -(a.idx : Int))

/-- Sort key used by the `"specificity"` strategy. -/
def specKey (a : Act) : Int × Int × Int :=
  ((a.rule.lhs.length : Int), a.rule.priority, -(a.idx : Int))

/-- Lexicographic strict order on integer triples (Python tuple `<`). -/
def tripLt (x y : Int × Int × Int) : Prop :=
  x.1 < y.1 ∨ (x.1 = y.1 ∧ (x.2.1 < y.2.1 ∨ (x.2.1 = y.2.1 ∧ x.2.2 < y.2.2)))

instance (x y : Int × Int × Int) : Decidable (tripLt x y) := by
  unfold tripLt; exact inferInstance

/-- Python `max(xs, key=k)` on a nonempty list: keeps the earlier element
unless a strictly greater key appears. -/
def pymax (k : Act → Int × Int × Int) (x : Act) : List Act → Act
  | [] => x
  | y :: ys => if tripLt (k x) (k y) then pymax k y ys else pymax k x ys

/-- Python `min(xs, key=k)` on a nonempty list: keeps the earlier element
unless a strictly smaller key appears. -/
def pymin (k : Act → Nat) (x : Act) : List Act → Act
  | [] => x
  | y :: ys => if k y < k x then pymin k y ys else pymin k x ys

/-- `select_rule(agenda, strategy)`.  Unknown strategies return `none`
(Python prints an error and returns `None`, which the caller then crashes
on when it unpacks the result). -/
def select_rule (agenda : List Act) (strategy : String) : Option Act :=
  match agenda with
  | [] => none
  | a :: rest =>
    if strategy = "priority" then some (pymax prioKey a rest)
    else if strategy = "specificity" then some (pymax specKey a rest)
    else if strategy = "order" then some (pymin (fun x => x.idx) a rest)
    else none

/-- A provenance entry: `{'type': 'given'}` or
`{'type': 'inferred', 'rule': ..., 'bindings': ..., 'supports': ...}`. -/
inductive ProvEntry where
  | given
  | inferred (rule : String) (bindings : Env) (supports : List PTerm)
deriving DecidableEq

/-- The provenance map, as an insertion-ordered association list. -/
abbrev Prov := List (PTerm × ProvEntry)

/-- `{f: {'type': 'given'} for f in wm}`: later duplicates do not add a
second key. -/
def initProv (wm : List PTerm) : Prov :=
  wm.foldl (fun p f => if f ∈ p.map (·.1) then p else p ++ [(f, .given)]) []

/-- The ACT phase of one cycle: instantiate each consequent template and
append it to working memory (with a provenance entry) unless it is already
present. -/
def applyAct (a : Act) (wm : List PTerm) (prov : Prov) : List PTerm × Prov :=
  a.rule.rhs.foldl
    (fun st pat =>
      let nf := instantiate pat a.bindings
      if nf ∈ st.1 then st
      else (st.1 ++ [nf], st.2 ++ [(nf, .inferred a.rule.name a.bindings a.supports)]))
    (wm, prov)

/-- The `for i, r in enumerate(rules)` MATCH loop of `run_ps`, starting at
declaration index `i`: every match whose activation key is not in the fired
history, in matcher order, appended rule by rule. -/
def buildAgendaFrom (uf : Nat) (wm : List PTerm) (fired : List AKey) :
    Nat → List Rule → Option (List Act)
  | _, [] => some []
  | i, r :: rs =>
    match match_rules uf r.lhs wm [] [] with
    | none => none
    | some ms =>
      let acts := ms.filterMap (fun bs =>
        let k := get_activation_key i bs.1
        if k ∈ fired then none else some ⟨r, bs.1, bs.2, i, k⟩)
      match buildAgendaFrom uf wm fired (i + 1) rs with
      | none => none
      | some rest => some (acts ++ rest)

/-- The MATCH phase: for each rule in declaration order, every match whose
activation key is not in the fired history, in matcher order. -/
def buildAgenda (uf : Nat) (rules : List Rule) (wm : List PTerm) (fired : List AKey) :
    Option (List Act) :=
  buildAgendaFrom uf wm fired 0 rules

/-- How a run ended: empty agenda, step ceiling reached, or the Python
`TypeError` crash from unpacking `select_rule`'s `None` on an unknown
strategy. -/
inductive Halt where
  | normal
  | stepLimit
  | badStrategy
deriving DecidableEq

/-- One executed cycle: working memory at cycle start, the agenda built,
and the fired activation key (`none` on the final empty-agenda cycle or on
the unknown-strategy crash). -/
structure CycleRec where
  wm : List PTerm
  agenda : List Act
  fired : Option AKey

/-- The full observable outcome of a run. -/
structure RunResult where
  wm : List PTerm
  prov : Prov
  halt : Halt
  trace : List CycleRec

/-- The `while step < max_steps` loop of `run_ps`; the `Nat` argument is
the remaining iteration budget `max_steps - step`. -/
def runLoop (uf : Nat) (rules : List Rule) (strategy : String) :
    Nat → List PTerm → List AKey → Prov → List CycleRec → Option RunResult
  | 0, wm, _, prov, tr => some ⟨wm, prov, .stepLimit, tr⟩
  | fuel + 1, wm, fired, prov, tr =>
    match buildAgenda uf rules wm fired with
    | none => none
    | some [] => some ⟨wm, prov, .normal, tr ++ [⟨wm, [], none⟩]⟩
    | some agenda =>
      match select_rule agenda strategy with
      | none => some ⟨wm, prov, .badStrategy, tr ++ [⟨wm, agenda, none⟩]⟩
      | some a =>
        let st := applyAct a wm prov
        runLoop uf rules strategy fuel st.1 (fired ++ [a.key]) st.2
          (tr ++ [⟨wm, agenda, some a.key⟩])

/-- `max_steps = 100`, the hard iteration ceiling of `run_ps`. -/
def max_steps : Nat := 100

/-- `run_ps` with its full observable state (halt reason and trace kept). -/
def run_full (uf : Nat) (start_wm : List PTerm) (rules : List Rule)
    (strategy : String) : Option RunResult :=
  runLoop uf rules strategy max_steps start_wm [] (initProv start_wm) []

/-- `run_ps` exactly as Python returns it: the pair `(wm, provenance)`, or
`Except.error` for the unknown-strategy crash.  The outer `Option` is fuel
exhaustion of the unifier (a Python run that never returns). -/
def run_ps (uf : Nat) (start_wm : List PTerm) (rules : List Rule)
    (strategy : String) : Option (Except Unit (List PTerm × Prov)) :=
  (run_full uf start_wm rules strategy).map (fun r =>
    match r.halt with
    | .badStrategy => .error ()
    | _ => .ok (r.wm, r.prov))

/-! ## Notions used by the unification-symmetry analysis -/

/-- A term is atomic when it is a string (no tuple structure). -/
def isAtomicT : PTerm → Bool
  | .str _ => true
  | .tup _ => false

/-- `unify(A, B, E)` succeeds: some fuel reaches a successful environment. -/
def USucc (A B : PTerm) (E : Env) : Prop :=
  ∃ g F, unify g A B E = some (some F)

/-- `unify(A, B, E)` terminates: some fuel reaches an answer (success or
failure); on Python this is exactly the calls that return at all. -/
def UTerminates (A B : PTerm) (E : Env) : Prop :=
  ∃ g r, unify g A B E = some r

/-- One-or-more-step dereferencing through the environment: a bound
variable steps to its bound value; `ReachT` is the reflexive-transitive
closure. -/
inductive ReachT (E : Env) : PTerm → PTerm → Prop where
  | refl (t : PTerm) : ReachT E t t
  | step (s : String) (t u : PTerm) : is_var (.str s) = true → lookupB E s = some t →
      ReachT E t u → ReachT E (.str s) u

/-- Two terms are compatible when their dereferencing chains meet, or
either chain ends in an unbound variable (which `unify` would simply
bind). -/
def Compat (E : Env) (X Y : PTerm) : Prop :=
  (∃ c, ReachT E X c ∧ ReachT E Y c) ∨
  (∃ s, ReachT E X (.str s) ∧ is_var (.str s) = true ∧ lookupB E s = none) ∨
  (∃ s, ReachT E Y (.str s) ∧ is_var (.str s) = true ∧ lookupB E s = none)

/-- The dereferencing chains of `X` and `Y` meet at a common term. -/
def Meets (E : Env) (X Y : PTerm) : Prop :=
  ∃ c, ReachT E X c ∧ ReachT E Y c

/-- The chain of `X` ends at an unbound variable. -/
def Unb (E : Env) (X : PTerm) : Prop :=
  ∃ s, ReachT E X (.str s) ∧ is_var (.str s) = true ∧ lookupB E s = none

/-- Observational equivalence of two binding environments for the
unifier: the same chains reach the same non-variable values, the same
pairs of chains meet, and the same chains end unbound.  The two runs of
the symmetry argument keep their environments in this relation. -/
def ERel (e1 e2 : Env) : Prop :=
  (∀ a u, is_var u = false → (ReachT e1 a u ↔ ReachT e2 a u)) ∧
  (∀ a b, Meets e1 a b ↔ Meets e2 a b) ∧
  (∀ a, Unb e1 a ↔ Unb e2 a)

/-- Cross-environment correspondence of in-flight unifier arguments: the
two terms resolve to a common term, or to variables whose chains meet. -/
def TRel (e1 e2 : Env) (a b : PTerm) : Prop :=
  (∃ u, ReachT e1 a u ∧ ReachT e2 b u) ∨
  (∃ x y, ReachT e1 a (.str x) ∧ ReachT e2 b (.str y) ∧
    is_var (.str x) = true ∧ is_var (.str y) = true ∧ Meets e1 (.str x) (.str y))

/-- The argument pairs of the two unifier runs correspond, in one of the
two orientations. -/
def PairRel (e1 e2 : Env) (p t q s : PTerm) : Prop :=
  (TRel e1 e2 p q ∧ TRel e1 e2 t s) ∨ (TRel e1 e2 p s ∧ TRel e1 e2 t q)

/-- The conclusion of the symmetry simulation: the two terminating
answers agree on success, and successful final environments are again
observationally equivalent. -/
def SymOut (r1 r2 : Option Env) : Prop :=
  (∀ f1, r1 = some f1 → ∃ f2, r2 = some f2 ∧ ERel f1 f2) ∧
  (∀ f2, r2 = some f2 → ∃ f1, r1 = some f1 ∧ ERel f1 f2)

/-- The simulation statement at recursion budget `n`: any two terminating
unifier runs on corresponding argument pairs over observationally
equivalent environments agree on success and keep their final
environments equivalent. -/
def SymIH (n : Nat) : Prop :=
  ∀ g1 g2 : Nat, ∀ p t q s : PTerm, ∀ e1 e2 : Env, ∀ r1 r2 : Option Env,
    g1 + g2 ≤ n → ERel e1 e2 → PairRel e1 e2 p t q s →
    unify g1 p t e1 = some r1 → unify g2 q s e2 = some r2 → SymOut r1 r2

/-- An atomic environment binding `?x` to the constant `c`. -/
def atomEnv : Env := [("?x", PTerm.str "c")]

/-- An environment with a cyclic variable chain `?b → ?c → ?b`. -/
def cycEnv : Env := [("?a", .str "?b"), ("?b", .str "?c"), ("?c", .str "?b")]

/-! ## Concrete inputs used by witnesses and counterexamples -/

/-- A no-operation rule: empty antecedent and consequent. -/
def noopRule : Rule := ⟨"noop", [], [], 0⟩

/-- 100 no-operation rules (empty antecedent and consequent); each firing
consumes one step of the iteration ceiling without changing any state. -/
def noopRules : List Rule := List.replicate 100 noopRule

/-- The single activation the no-op rule at declaration index `i`
produces: empty bindings and supports, key `(i, [])`. -/
def noopAct (i : Nat) : Act := ⟨noopRule, [], [], i, (i, [])⟩

/-- The fired history after the first `k` no-op rules have fired, in
firing order. -/
def firedKeys (k : Nat) : List AKey := (List.range k).map fun j => (j, ([] : Env))

/-- The agenda the MATCH phase builds from `m` no-op rules starting at
declaration index `i` when the rules with index below `k` have already
fired: one activation per not-yet-fired rule, in declaration order. -/
def noopAgendaAux : Nat → Nat → Nat → List Act
  | _, 0, _ => []
  | i, m + 1, k => (if i < k then [] else [noopAct i]) ++ noopAgendaAux (i + 1) m k

/-- The `graduate-only(CS550)` fact of the spec scenario. -/
def fGrad : PTerm := PTerm.tup [PTerm.str "graduate-only", PTerm.str "CS550"]

/-- The `not-graduate-student(Carol)` fact of the spec scenario. -/
def fCarol : PTerm := PTerm.tup [PTerm.str "not-graduate-student", PTerm.str "Carol"]

/-- The graduate-only enrollment restriction rule of the spec scenario. -/
def ruleGrad : Rule :=
  ⟨"graduate-only-course-restriction",
    [PTerm.tup [PTerm.str "graduate-only", PTerm.str "?course"],
     PTerm.tup [PTerm.str "not-graduate-student", PTerm.str "?student"]],
    [[PTerm.str "cannot-enroll-course", PTerm.str "?student", PTerm.str "?course"]], 7⟩

/-- A two-rule chain: the first rule asserts `(b)`, which enables the
second rule to assert `(c)`; the run then halts on an empty agenda. -/
def chainRules : List Rule :=
  [⟨"make-b", [], [[PTerm.str "b"]], 0⟩,
   ⟨"b-to-c", [PTerm.tup [PTerm.str "b"]], [[PTerm.str "c"]], 0⟩]

/-- A low-priority activation of declaration index 0. -/
def actA : Act := ⟨⟨"r1", [], [], 1⟩, [], [], 0, (0, [])⟩

/-- A high-priority, later-declared activation. -/
def actB : Act := ⟨⟨"r2", [], [], 9⟩, [], [], 1, (1, [])⟩

/-- One of two identical tied activations of the same rule. -/
def actT : Act := ⟨⟨"r", [], [], 5⟩, [], [], 0, (0, [])⟩

/-! ## Generic facts about the conflict-resolution primitives -/

theorem tripLt_trans {a b c : Int × Int × Int} (h1 : tripLt a b) (h2 : tripLt b c) :
    tripLt a c := by
  obtain ⟨a1, a2, a3⟩ := a
  obtain ⟨b1, b2, b3⟩ := b
  obtain ⟨c1, c2, c3⟩ := c
  unfold tripLt at *
  simp only at *
  omega

theorem tripLt_cross {a b c : Int × Int × Int} (h1 : tripLt a b) (h2 : ¬ tripLt c b) :
    tripLt a c := by
  obtain ⟨a1, a2, a3⟩ := a
  obtain ⟨b1, b2, b3⟩ := b
  obtain ⟨c1, c2, c3⟩ := c
  unfold tripLt at *
  simp only at *
  omega

theorem tripLt_cross2 {a b c : Int × Int × Int} (h1 : ¬ tripLt a b) (h2 : tripLt a c) :
    tripLt b c := by
  obtain ⟨a1, a2, a3⟩ := a
  obtain ⟨b1, b2, b3⟩ := b
  obtain ⟨c1, c2, c3⟩ := c
  unfold tripLt at *
  simp only at *
  omega

theorem pymax_mem (k : Act → Int × Int × Int) :
    ∀ (xs : List Act) (x : Act), pymax k x xs ∈ x :: xs := by
  intro xs
  induction xs with
  | nil => intro x; simp [pymax]
  | cons y ys ih =>
    intro x
    by_cases h : tripLt (k x) (k y)
    · simp only [pymax, if_pos h]
      rcases List.mem_cons.mp (ih y) with h2 | h2
      · simp [h2]
      · simp [h2]
    · simp only [pymax, if_neg h]
      rcases List.mem_cons.mp (ih x) with h2 | h2
      · simp [h2]
      · simp [h2]

theorem pymax_ge (k : Act → Int × Int × Int) :
    ∀ (xs : List Act) (x y : Act), y ∈ x :: xs → ¬ tripLt (k (pymax k x xs)) (k y) := by
  intro xs
  induction xs with
  | nil =>
    intro x y hy
    simp at hy
    subst hy
    simp [pymax, tripLt]
  | cons z zs ih =>
    intro x y hy
    by_cases h : tripLt (k x) (k z)
    · simp only [pymax, if_pos h]
      rcases List.mem_cons.mp hy with heq | hy2
      · subst heq
        intro hlt
        exact ih z z (by simp) (tripLt_trans hlt h)
      · exact ih z y hy2
    · simp only [pymax, if_neg h]
      rcases List.mem_cons.mp hy with heq | hy2
      · subst heq
        exact ih y y (by simp)
      · rcases List.mem_cons.mp hy2 with heq2 | hy3
        · subst heq2
          intro hlt
          exact ih x x (by simp) (tripLt_cross hlt h)
        · exact ih x y (by simp [hy3])

theorem pymax_first (k : Act → Int × Int × Int) :
    ∀ (xs : List Act) (x : Act), ∃ l1 l2, x :: xs = l1 ++ pymax k x xs :: l2 ∧
      ∀ y ∈ l1, tripLt (k y) (k (pymax k x xs)) := by
  intro xs
  induction xs with
  | nil => intro x; exact ⟨[], [], by simp [pymax], by simp⟩
  | cons z zs ih =>
    intro x
    by_cases h : tripLt (k x) (k z)
    · simp only [pymax, if_pos h]
      obtain ⟨l1, l2, hdec, hlt⟩ := ih z
      refine ⟨x :: l1, l2, by simp [hdec], ?_⟩
      intro y hy
      rcases List.mem_cons.mp hy with rfl | hy2
      · have hz : ¬ tripLt (k (pymax k z zs)) (k z) := pymax_ge k zs z z (by simp)
        exact tripLt_cross h hz
      · exact hlt y hy2
    · simp only [pymax, if_neg h]
      obtain ⟨l1, l2, hdec, hlt⟩ := ih x
      cases l1 with
      | nil =>
        simp only [List.nil_append, List.cons.injEq] at hdec
        refine ⟨[], z :: zs, ?_, by simp⟩
        simp [← hdec.1]
      | cons w l1' =>
        rw [List.cons_append, List.cons.injEq] at hdec
        obtain ⟨hw, hys⟩ := hdec
        subst hw
        refine ⟨x :: z :: l1', l2, by conv_rhs => rw [List.cons_append, List.cons_append, ← hys], ?_⟩
        intro y hy
        have hxlt : tripLt (k x) (k (pymax k x zs)) := hlt x (by simp)
        rcases List.mem_cons.mp hy with heq | hy2
        · subst heq
          exact hxlt
        · rcases List.mem_cons.mp hy2 with heq2 | hy3
          · subst heq2
            exact tripLt_cross2 h hxlt
          · exact hlt y (by simp [hy3])

theorem pymin_mem (k : Act → Nat) :
    ∀ (xs : List Act) (x : Act), pymin k x xs ∈ x :: xs := by
  intro xs
  induction xs with
  | nil => intro x; simp [pymin]
  | cons y ys ih =>
    intro x
    by_cases h : k y < k x
    · simp only [pymin, if_pos h]
      rcases List.mem_cons.mp (ih y) with h2 | h2
      · simp [h2]
      · simp [h2]
    · simp only [pymin, if_neg h]
      rcases List.mem_cons.mp (ih x) with h2 | h2
      · simp [h2]
      · simp [h2]

theorem pymin_le (k : Act → Nat) :
    ∀ (xs : List Act) (x y : Act), y ∈ x :: xs → k (pymin k x xs) ≤ k y := by
  intro xs
  induction xs with
  | nil =>
    intro x y hy
    simp at hy
    subst hy
    simp [pymin]
  | cons z zs ih =>
    intro x y hy
    by_cases h : k z < k x
    · simp only [pymin, if_pos h]
      rcases List.mem_cons.mp hy with heq | hy2
      · subst heq
        have := ih z z (by simp)
        omega
      · exact ih z y hy2
    · simp only [pymin, if_neg h]
      rcases List.mem_cons.mp hy with heq | hy2
      · subst heq
        exact ih y y (by simp)
      · rcases List.mem_cons.mp hy2 with heq2 | hy3
        · subst heq2
          have := ih x x (by simp)
          omega
        · exact ih x y (by simp [hy3])

theorem pymin_first (k : Act → Nat) :
    ∀ (xs : List Act) (x : Act), ∃ l1 l2, x :: xs = l1 ++ pymin k x xs :: l2 ∧
      ∀ y ∈ l1, k (pymin k x xs) < k y := by
  intro xs
  induction xs with
  | nil => intro x; exact ⟨[], [], by simp [pymin], by simp⟩
  | cons z zs ih =>
    intro x
    by_cases h : k z < k x
    · simp only [pymin, if_pos h]
      obtain ⟨l1, l2, hdec, hlt⟩ := ih z
      refine ⟨x :: l1, l2, by simp [hdec], ?_⟩
      intro y hy
      rcases List.mem_cons.mp hy with rfl | hy2
      · have hz : k (pymin k z zs) ≤ k z := pymin_le k zs z z (by simp)
        omega
      · exact hlt y hy2
    · simp only [pymin, if_neg h]
      obtain ⟨l1, l2, hdec, hlt⟩ := ih x
      cases l1 with
      | nil =>
        simp only [List.nil_append, List.cons.injEq] at hdec
        refine ⟨[], z :: zs, ?_, by simp⟩
        simp [← hdec.1]
      | cons w l1' =>
        rw [List.cons_append, List.cons.injEq] at hdec
        obtain ⟨hw, hys⟩ := hdec
        subst hw
        refine ⟨x :: z :: l1', l2, by conv_rhs => rw [List.cons_append, List.cons_append, ← hys], ?_⟩
        intro y hy
        have hxlt : k (pymin k x zs) < k x := hlt x (by simp)
        rcases List.mem_cons.mp hy with heq | hy2
        · subst heq
          exact hxlt
        · rcases List.mem_cons.mp hy2 with heq2 | hy3
          · subst heq2
            omega
          · exact hlt y (by simp [hy3])

/-! ## C2, C10: conflict resolution -/

/-- C2: For every non-empty agenda, `select_rule` returns an agenda member
that maximizes `(priority, conditionCount, -declarationIndex)` under
`"priority"`, maximizes `(conditionCount, priority, -declarationIndex)`
under `"specificity"`, and has the smallest declaration index under
`"order"` (the first-found match of that rule: everything before it in the
agenda has a strictly larger index). -/
theorem select_rule_maximizes (agenda : List Act) (h : agenda ≠ []) :
    (∃ m, select_rule agenda "priority" = some m ∧ m ∈ agenda ∧
        ∀ b ∈ agenda, ¬ tripLt (prioKey m) (prioKey b)) ∧
    (∃ m, select_rule agenda "specificity" = some m ∧ m ∈ agenda ∧
        ∀ b ∈ agenda, ¬ tripLt (specKey m) (specKey b)) ∧
    (∃ m, select_rule agenda "order" = some m ∧ m ∈ agenda ∧
        (∀ b ∈ agenda, m.idx ≤ b.idx) ∧
        ∃ l1 l2, agenda = l1 ++ m :: l2 ∧ ∀ b ∈ l1, m.idx < b.idx) := by
  match agenda, h with
  | a :: rest, _ =>
    refine ⟨⟨pymax prioKey a rest, rfl, pymax_mem _ _ _,
        fun b hb => pymax_ge prioKey rest a b hb⟩,
      ⟨pymax specKey a rest, rfl, pymax_mem _ _ _,
        fun b hb => pymax_ge specKey rest a b hb⟩,
      ⟨pymin (fun x => x.idx) a rest, rfl, pymin_mem _ _ _,
        fun b hb => pymin_le (fun x => x.idx) rest a b hb, ?_⟩⟩
    obtain ⟨l1, l2, hdec, hlt⟩ := pymin_first (fun x => x.idx) rest a
    exact ⟨l1, l2, hdec, hlt⟩

/-- Closed witness for `select_rule_maximizes` on a two-element agenda. -/
theorem select_rule_maximizes_witness :
    (∃ m, select_rule
        [actA, actB]
        "priority" = some m ∧
        m ∈ [actA, actB] ∧
        ∀ b ∈ [actA, actB],
          ¬ tripLt (prioKey m) (prioKey b)) ∧
    (∃ m, select_rule
        [actA, actB]
        "specificity" = some m ∧
        m ∈ [actA, actB] ∧
        ∀ b ∈ [actA, actB],
          ¬ tripLt (specKey m) (specKey b)) ∧
    (∃ m, select_rule
        [actA, actB]
        "order" = some m ∧
        m ∈ [actA, actB] ∧
        (∀ b ∈ [actA, actB],
          m.idx ≤ b.idx) ∧
        ∃ l1 l2,
          [actA, actB] =
            l1 ++ m :: l2 ∧ ∀ b ∈ l1, m.idx < b.idx) :=
  select_rule_maximizes _ (by simp)

/-- C10: Under `"priority"` and `"specificity"`, the selected activation is
the earliest agenda entry attaining the maximal sort key (everything before
it is strictly smaller, so among full-key ties the first one wins), and a
full-key tie forces the same declaration index (hence the same rule). -/
theorem select_rule_tie_earliest (agenda : List Act) (h : agenda ≠ []) :
    (∃ m l1 l2, select_rule agenda "priority" = some m ∧ agenda = l1 ++ m :: l2 ∧
        (∀ b ∈ l1, tripLt (prioKey b) (prioKey m)) ∧
        (∀ b ∈ agenda, prioKey b = prioKey m → b.idx = m.idx)) ∧
    (∃ m l1 l2, select_rule agenda "specificity" = some m ∧ agenda = l1 ++ m :: l2 ∧
        (∀ b ∈ l1, tripLt (specKey b) (specKey m)) ∧
        (∀ b ∈ agenda, specKey b = specKey m → b.idx = m.idx)) := by
  match agenda, h with
  | a :: rest, _ =>
    constructor
    · obtain ⟨l1, l2, hdec, hlt⟩ := pymax_first prioKey rest a
      refine ⟨pymax prioKey a rest, l1, l2, rfl, hdec, hlt, ?_⟩
      intro b _ hk
      have h3 := congrArg (fun t => t.2.2) hk
      simp only [prioKey] at h3
      omega
    · obtain ⟨l1, l2, hdec, hlt⟩ := pymax_first specKey rest a
      refine ⟨pymax specKey a rest, l1, l2, rfl, hdec, hlt, ?_⟩
      intro b _ hk
      have h3 := congrArg (fun t => t.2.2) hk
      simp only [specKey] at h3
      omega

/-- Closed witness for `select_rule_tie_earliest`: two tied matches of the
same rule; the decomposition puts the first one in selected position. -/
theorem select_rule_tie_earliest_witness :
    (∃ m l1 l2, select_rule
        [actT, actT]
        "priority" = some m ∧
        [actT, actT] =
          l1 ++ m :: l2 ∧
        (∀ b ∈ l1, tripLt (prioKey b) (prioKey m)) ∧
        (∀ b ∈ [actT, actT],
          prioKey b = prioKey m → b.idx = m.idx)) ∧
    (∃ m l1 l2, select_rule
        [actT, actT]
        "specificity" = some m ∧
        [actT, actT] =
          l1 ++ m :: l2 ∧
        (∀ b ∈ l1, tripLt (specKey b) (specKey m)) ∧
        (∀ b ∈ [actT, actT],
          specKey b = specKey m → b.idx = m.idx)) :=
  select_rule_tie_earliest _ (by simp)

/-! ## C6: consequent instantiation -/

/-- C6: `instantiate` substitutes every bound variable of the template by
its bound value and leaves every unbound variable in place as a literal
token (the variable's own name appears in the emitted fact). -/
theorem instantiate_substitution (pattern : List PTerm) (bindings : Env) :
    ∃ ts : List PTerm, instantiate pattern bindings = PTerm.tup ts ∧
      ts.length = pattern.length ∧
      ∀ (i : Nat) (s : String), pattern[i]? = some (PTerm.str s) → is_var (PTerm.str s) = true →
        ((∀ v, lookupB bindings s = some v → ts[i]? = some v) ∧
         (lookupB bindings s = none → ts[i]? = some (PTerm.str s))) := by
  refine ⟨pattern.map (fun term =>
      if is_var term then
        match term with
        | .str s => (lookupB bindings s).getD term
        | t => t
      else term), rfl, by simp, ?_⟩
  intro i s hget hvar
  constructor
  · intro v hv
    simp [List.getElem?_map, hget, hvar, hv]
  · intro hv
    simp [List.getElem?_map, hget, hvar, hv]

/-- Closed witness for `instantiate_substitution`: `?x` is bound to `A`,
`?y` is unbound and survives literally. -/
theorem instantiate_substitution_witness :
    ∃ ts, instantiate [PTerm.str "?x", PTerm.str "c", PTerm.str "?y"]
        [("?x", PTerm.str "A")] = PTerm.tup ts ∧
      ts[0]? = some (PTerm.str "A") ∧ ts[2]? = some (PTerm.str "?y") := by
  obtain ⟨ts, h1, _, h3⟩ := instantiate_substitution
    [PTerm.str "?x", PTerm.str "c", PTerm.str "?y"] [("?x", PTerm.str "A")]
  exact ⟨ts, h1, (h3 0 "?x" rfl (by decide)).1 (PTerm.str "A") rfl,
    (h3 2 "?y" rfl (by decide)).2 rfl⟩

/-! ## C3: the matcher enumerates depth-first backtracking results -/

theorem matchFactsAux_eq_mapM (u : PTerm → PTerm → Env → URes)
    (mrest : Env → List PTerm → Option (List (Env × List PTerm))) (c : PTerm) :
    ∀ (facts : List PTerm) (bindings : Env) (supports : List PTerm),
      matchFactsAux u mrest c facts bindings supports =
        (facts.mapM (fun fact =>
          match u c fact bindings with
          | none => none
          | some none => some []
          | some (some nb) => mrest nb (supports ++ [fact]))).map List.flatten := by
  intro facts
  induction facts with
  | nil => intro b s; rfl
  | cons fact fs ih =>
    intro b s
    rw [List.mapM_cons]
    simp only [matchFactsAux]
    cases hu : u c fact b with
    | none => simp [hu]
    | some o =>
      cases o with
      | none =>
        rw [ih b s]
        cases hm : fs.mapM (fun fact =>
            match u c fact b with
            | none => none
            | some none => some []
            | some (some nb) => mrest nb (s ++ [fact])) with
        | none => simp [hu, hm]
        | some ys => simp [hu, hm]
      | some nb =>
        cases hr : mrest nb (s ++ [fact]) with
        | none => simp [hu, hr]
        | some rs =>
          rw [ih b s]
          cases hm : fs.mapM (fun fact =>
              match u c fact b with
              | none => none
              | some none => some []
              | some (some nb) => mrest nb (s ++ [fact])) with
          | none => simp [hu, hr, hm]
          | some ys => simp [hu, hr, hm]

/-- C3: `match_rules` computes exactly the depth-first backtracking search
described by the specification: an empty condition list yields the single
accumulated result; otherwise the first condition is unified against every
working-memory fact in order, each success recurses on the remaining
conditions with the extended environment and support list, and all
downstream result lists are concatenated in that deterministic order
(fuel exhaustion of any unification propagates as `none`). -/
theorem match_rules_enumerates (uf : Nat) :
    (∀ (wm : List PTerm) (bindings : Env) (supports : List PTerm),
      match_rules uf [] wm bindings supports = some [(bindings, supports)]) ∧
    (∀ (c : PTerm) (rest wm : List PTerm) (bindings : Env) (supports : List PTerm),
      match_rules uf (c :: rest) wm bindings supports =
        (wm.mapM (fun fact =>
          match unify uf c fact bindings with
          | none => none
          | some none => some []
          | some (some nb) =>
            match_rules uf rest wm nb (supports ++ [fact]))).map List.flatten) := by
  constructor
  · intro wm bindings supports
    rfl
  · intro c rest wm bindings supports
    exact matchFactsAux_eq_mapM (unify uf)
      (fun nb sup => match_rules uf rest wm nb sup) c wm bindings supports

/-! ## Engine-loop helper lemmas -/

theorem applyActAux_extends (name : String) (bindings : Env) (supports : List PTerm) :
    ∀ (rhs : List (List PTerm)) (wm : List PTerm) (prov : Prov),
      ∃ l q, rhs.foldl (fun st pat =>
          let nf := instantiate pat bindings
          if nf ∈ st.1 then st
          else (st.1 ++ [nf], st.2 ++ [(nf, ProvEntry.inferred name bindings supports)]))
        (wm, prov) = (wm ++ l, prov ++ q) := by
  intro rhs
  induction rhs with
  | nil => intro wm prov; exact ⟨[], [], by simp⟩
  | cons pat rest ih =>
    intro wm prov
    simp only [List.foldl_cons]
    by_cases hmem : instantiate pat bindings ∈ wm
    · simpa [hmem] using ih wm prov
    · obtain ⟨l, q, hl⟩ := ih (wm ++ [instantiate pat bindings])
        (prov ++ [(instantiate pat bindings, ProvEntry.inferred name bindings supports)])
      refine ⟨instantiate pat bindings :: l,
        (instantiate pat bindings, ProvEntry.inferred name bindings supports) :: q, ?_⟩
      simp only [hmem, if_neg, ite_false]
      simpa using hl

theorem applyAct_extends (a : Act) (wm : List PTerm) (prov : Prov) :
    ∃ l q, applyAct a wm prov = (wm ++ l, prov ++ q) :=
  applyActAux_extends a.rule.name a.bindings a.supports a.rule.rhs wm prov

theorem applyActAux_nodup (name : String) (bindings : Env) (supports : List PTerm) :
    ∀ (rhs : List (List PTerm)) (wm : List PTerm) (prov : Prov),
      wm.Nodup → prov.map Prod.fst = wm →
      (rhs.foldl (fun st pat =>
          let nf := instantiate pat bindings
          if nf ∈ st.1 then st
          else (st.1 ++ [nf], st.2 ++ [(nf, ProvEntry.inferred name bindings supports)]))
        (wm, prov)).1.Nodup ∧
      (rhs.foldl (fun st pat =>
          let nf := instantiate pat bindings
          if nf ∈ st.1 then st
          else (st.1 ++ [nf], st.2 ++ [(nf, ProvEntry.inferred name bindings supports)]))
        (wm, prov)).2.map Prod.fst =
      (rhs.foldl (fun st pat =>
          let nf := instantiate pat bindings
          if nf ∈ st.1 then st
          else (st.1 ++ [nf], st.2 ++ [(nf, ProvEntry.inferred name bindings supports)]))
        (wm, prov)).1 := by
  intro rhs
  induction rhs with
  | nil => intro wm prov h1 h2; exact ⟨h1, h2⟩
  | cons pat rest ih =>
    intro wm prov h1 h2
    simp only [List.foldl_cons]
    by_cases hmem : instantiate pat bindings ∈ wm
    · simpa [hmem] using ih wm prov h1 h2
    · have h1' : (wm ++ [instantiate pat bindings]).Nodup := by
        simp [List.nodup_append, h1, hmem]
      have h2' : (prov ++ [(instantiate pat bindings,
          ProvEntry.inferred name bindings supports)]).map Prod.fst =
          wm ++ [instantiate pat bindings] := by
        simp [h2]
      simpa [hmem] using ih (wm ++ [instantiate pat bindings])
        (prov ++ [(instantiate pat bindings, ProvEntry.inferred name bindings supports)]) h1' h2'

theorem applyAct_nodup (a : Act) (wm : List PTerm) (prov : Prov)
    (h1 : wm.Nodup) (h2 : prov.map Prod.fst = wm) :
    (applyAct a wm prov).1.Nodup ∧
    (applyAct a wm prov).2.map Prod.fst = (applyAct a wm prov).1 :=
  applyActAux_nodup a.rule.name a.bindings a.supports a.rule.rhs wm prov h1 h2

theorem buildAgendaFrom_not_fired (uf : Nat) (wm : List PTerm) (fired : List AKey) :
    ∀ (rules : List Rule) (i : Nat) (ag : List Act),
      buildAgendaFrom uf wm fired i rules = some ag → ∀ a ∈ ag, a.key ∉ fired := by
  intro rules
  induction rules with
  | nil =>
    intro i ag h a ha
    simp only [buildAgendaFrom] at h
    cases h
    simp at ha
  | cons r rs ih =>
    intro i ag h a ha
    simp only [buildAgendaFrom] at h
    cases hm : match_rules uf r.lhs wm [] [] with
    | none => rw [hm] at h; cases h
    | some ms =>
      rw [hm] at h
      cases hrest : buildAgendaFrom uf wm fired (i + 1) rs with
      | none => simp [hrest] at h
      | some rest =>
        simp only [hrest] at h
        cases h
        rcases List.mem_append.mp ha with hin | hin
        · obtain ⟨bs, _, hbs⟩ := List.mem_filterMap.mp hin
          by_cases hk : get_activation_key i bs.1 ∈ fired
          · simp [hk] at hbs
          · simp only [hk, if_neg, ite_false] at hbs
            cases hbs
            exact hk
        · exact ih (i + 1) rest hrest a hin

theorem buildAgenda_not_fired (uf : Nat) (rules : List Rule) (wm : List PTerm)
    (fired : List AKey) (ag : List Act) (h : buildAgenda uf rules wm fired = some ag) :
    ∀ a ∈ ag, a.key ∉ fired :=
  buildAgendaFrom_not_fired uf wm fired rules 0 ag h

theorem initProv_keys_aux :
    ∀ (start : List PTerm) (p : Prov), start.Nodup →
      (∀ f ∈ start, f ∉ p.map Prod.fst) →
      (start.foldl
        (fun p f => if f ∈ p.map (fun x => x.1) then p else p ++ [(f, ProvEntry.given)])
        p).map Prod.fst = p.map Prod.fst ++ start := by
  intro start
  induction start with
  | nil => intro p _ _; simp
  | cons f fs ih =>
    intro p hnd hnotin
    have hf : f ∉ p.map (fun x => x.1) := hnotin f (by simp)
    simp only [List.foldl_cons, hf, if_neg, ite_false]
    have hres := ih (p ++ [(f, ProvEntry.given)]) (List.Nodup.of_cons hnd) ?_
    · rw [hres]
      simp
    · intro g hg
      simp only [List.map_append, List.mem_append] at *
      rintro (hgp | hgf)
      · exact hnotin g (by simp [hg]) hgp
      · simp at hgf
        subst hgf
        exact (List.nodup_cons.mp hnd).1 hg

theorem initProv_keys (start : List PTerm) (hnd : start.Nodup) :
    (initProv start).map Prod.fst = start := by
  have := initProv_keys_aux start [] hnd (by simp)
  simpa [initProv] using this

theorem select_rule_some_of_known (a : Act) (rest : List Act) (strategy : String)
    (h : strategy = "priority" ∨ strategy = "specificity" ∨ strategy = "order") :
    ∃ m, select_rule (a :: rest) strategy = some m := by
  rcases h with h | h | h <;> subst h <;> exact ⟨_, rfl⟩

/-- Master invariant of the `while` loop of `run_ps`: trace extension,
monotone growth of working memory and provenance, refraction of fired keys,
the two halt outcomes for known strategies, and preservation of
duplicate-freeness with exact provenance keys. -/
theorem runLoop_invariants (uf : Nat) (rules : List Rule) (strategy : String) :
    ∀ (fuel : Nat) (wm : List PTerm) (fired : List AKey) (prov : Prov)
      (tr : List CycleRec) (r : RunResult),
      runLoop uf rules strategy fuel wm fired prov tr = some r →
      ∃ ext, r.trace = tr ++ ext ∧
        (∃ l, r.wm = wm ++ l) ∧
        (∀ c ∈ ext, ∃ l, r.wm = c.wm ++ l) ∧
        (∃ q, r.prov = prov ++ q) ∧
        (∀ c ∈ ext, ∀ k ∈ fired, k ∉ c.agenda.map (fun a => a.key)) ∧
        (∀ (i j : Nat) (hi : i < ext.length) (hj : j < ext.length), i < j → ∀ k,
          (ext.get ⟨i, hi⟩).fired = some k →
          k ∉ (ext.get ⟨j, hj⟩).agenda.map (fun a => a.key)) ∧
        ((strategy = "priority" ∨ strategy = "specificity" ∨ strategy = "order") →
          r.halt = Halt.normal ∨ r.halt = Halt.stepLimit) ∧
        (wm.Nodup → prov.map Prod.fst = wm →
          r.wm.Nodup ∧ r.prov.map Prod.fst = r.wm ∧ ∀ c ∈ ext, c.wm.Nodup) := by
  intro fuel
  induction fuel with
  | zero =>
    intro wm fired prov tr r h
    simp only [runLoop] at h
    cases h
    exact ⟨[], by simp, ⟨[], by simp⟩, by simp, ⟨[], by simp⟩, by simp,
      by intro i j hi hj; simp at hi, fun _ => Or.inr rfl,
      fun h1 h2 => ⟨h1, h2, by simp⟩⟩
  | succ fuel ih =>
    intro wm fired prov tr r h
    rw [runLoop] at h
    cases hag : buildAgenda uf rules wm fired with
    | none => rw [hag] at h; cases h
    | some agenda =>
      rw [hag] at h
      cases agenda with
      | nil =>
        simp only at h
        cases h
        refine ⟨[⟨wm, [], none⟩], by simp, ⟨[], by simp⟩, ?_, ⟨[], by simp⟩, by simp,
          by intro i j hi hj hij; simp at hi hj; omega, fun _ => Or.inl rfl,
          fun h1 h2 => ⟨h1, h2, by simpa using h1⟩⟩
        intro c hc
        simp at hc
        subst hc
        exact ⟨[], by simp⟩
      | cons a ag =>
        cases hsel : select_rule (a :: ag) strategy with
        | none =>
          simp only [hsel] at h
          cases h
          refine ⟨[⟨wm, a :: ag, none⟩], by simp, ⟨[], by simp⟩, ?_, ⟨[], by simp⟩, ?_,
            by intro i j hi hj hij; simp at hi hj; omega, ?_, fun h1 h2 => ⟨h1, h2, by simpa using h1⟩⟩
          · intro c hc
            simp at hc
            subst hc
            exact ⟨[], by simp⟩
          · intro c hc k hk
            simp at hc
            subst hc
            simp only [CycleRec.agenda]
            intro hmem
            obtain ⟨x, hx, hxk⟩ := List.mem_map.mp hmem
            exact (buildAgenda_not_fired uf rules wm fired (a :: ag) hag x hx) (hxk ▸ hk)
          · intro hknown
            obtain ⟨m, hm⟩ := select_rule_some_of_known a ag strategy hknown
            rw [hm] at hsel
            cases hsel
        | some act =>
          simp only [hsel] at h
          obtain ⟨ext', htr, ⟨l', hwm⟩, hrecs, ⟨q', hprov⟩, href, hpair, hhalt, hnodup⟩ :=
            ih _ _ _ _ _ h
          obtain ⟨la, qa, hact⟩ := applyAct_extends act wm prov
          rw [hact] at hwm hprov
          refine ⟨⟨wm, a :: ag, some act.key⟩ :: ext', by simpa using htr,
            ⟨la ++ l', by simp [hwm]⟩, ?_, ⟨qa ++ q', by simp [hprov]⟩, ?_, ?_, hhalt, ?_⟩
          · intro c hc
            rcases List.mem_cons.mp hc with heq | hc2
            · subst heq
              exact ⟨la ++ l', by simp [hwm]⟩
            · exact hrecs c hc2
          · intro c hc k hk
            rcases List.mem_cons.mp hc with heq | hc2
            · subst heq
              simp only [CycleRec.agenda]
              intro hmem
              obtain ⟨x, hx, hxk⟩ := List.mem_map.mp hmem
              exact (buildAgenda_not_fired uf rules wm fired (a :: ag) hag x hx) (hxk ▸ hk)
            · exact href c hc2 k (List.mem_append_left _ hk)
          · intro i j hi hj hij k hk
            cases i with
            | zero =>
              cases j with
              | zero => omega
              | succ j' =>
                simp only [List.get] at hk ⊢
                have hkey : act.key = k := by
                  simpa using hk
                subst hkey
                exact href _ (List.get_mem _ _ _) act.key (by simp)
            | succ i' =>
              cases j with
              | zero => omega
              | succ j' =>
                simp only [List.get] at hk ⊢
                exact hpair i' j' (by simpa using hi) (by simpa using hj) (by omega) k hk
          · intro h1 h2
            obtain ⟨hn1, hn2⟩ := applyAct_nodup act wm prov h1 h2
            obtain ⟨g1, g2, g3⟩ := hnodup hn1 hn2
            exact ⟨g1, g2, by
              intro c hc
              rcases List.mem_cons.mp hc with heq | hc2
              · subst heq
                exact h1
              · exact g3 c hc2⟩

/-! ## C1: refraction -/

/-- C1: Once an activation key (derived from the rule's identity and the
binding environment's contents) has fired in some cycle, no activation with
that key appears in any later cycle's agenda of the same run (and hence it
is never selected again). -/
theorem fired_key_never_reappears (uf : Nat) (start_wm : List PTerm) (rules : List Rule)
    (strategy : String) (r : RunResult) (h : run_full uf start_wm rules strategy = some r) :
    ∀ (i j : Nat) (hi : i < r.trace.length) (hj : j < r.trace.length), i < j → ∀ k,
      (r.trace.get ⟨i, hi⟩).fired = some k →
      k ∉ (r.trace.get ⟨j, hj⟩).agenda.map (fun a => a.key) := by
  simp only [run_full] at h
  obtain ⟨ext, htr, _, _, _, _, hpair, _, _⟩ :=
    runLoop_invariants uf rules strategy max_steps start_wm [] (initProv start_wm) [] r h
  simp only [List.nil_append] at htr
  subst htr
  exact hpair

/-- Closed witness for `fired_key_never_reappears`: on the two-rule chain,
the key fired in cycle 1 is absent from the agenda of cycle 2. -/
theorem fired_key_never_reappears_witness :
    ∃ r, run_full 2 [] chainRules "order" = some r ∧ r.trace.length = 3 ∧
      ∃ (h1 : 0 < r.trace.length) (h2 : 1 < r.trace.length),
        (r.trace.get ⟨0, h1⟩).fired = some (0, []) ∧
        (0, []) ∉ (r.trace.get ⟨1, h2⟩).agenda.map (fun a => a.key) := by
  cases e : run_full 2 [] chainRules "order" with
  | none =>
    have hs : (run_full 2 [] chainRules "order").isSome = true := by decide
    rw [e] at hs
    simp at hs
  | some r =>
    have hlen : (run_full 2 [] chainRules "order").map (fun x => x.trace.length) = some 3 := by
      decide
    have hfired : (run_full 2 [] chainRules "order").map
        (fun x => x.trace.map (fun c => c.fired)) =
        some [some (0, []), some (1, []), none] := by decide
    rw [e] at hlen hfired
    simp only [Option.map_some', Option.some.injEq] at hlen hfired
    have h1 : 0 < r.trace.length := by omega
    have h2 : 1 < r.trace.length := by omega
    have hf0 : (r.trace.get ⟨0, h1⟩).fired = some (0, []) := by
      have := congrArg (fun l => l.get? 0) hfired
      simpa [List.get?_eq_get, h1] using this
    refine ⟨r, rfl, hlen, h1, h2, hf0, ?_⟩
    exact fired_key_never_reappears 2 [] chainRules "order" r e 0 1 h1 h2 (by omega) (0, []) hf0

/-! ## C9: monotone working memory -/

/-- C9: Across a full run, working memory only grows: the initial working
memory is a prefix of the final one, and the working memory observed at the
start of every cycle is a prefix of the final one — no fact is ever
removed. -/
theorem working_memory_monotone (uf : Nat) (start_wm : List PTerm) (rules : List Rule)
    (strategy : String) (r : RunResult) (h : run_full uf start_wm rules strategy = some r) :
    (∃ l, r.wm = start_wm ++ l) ∧ ∀ c ∈ r.trace, ∃ l, r.wm = c.wm ++ l := by
  simp only [run_full] at h
  obtain ⟨ext, htr, hgrow, hrecs, _, _, _, _, _⟩ :=
    runLoop_invariants uf rules strategy max_steps start_wm [] (initProv start_wm) [] r h
  simp only [List.nil_append] at htr
  subst htr
  exact ⟨hgrow, hrecs⟩

/-- Closed witness for `working_memory_monotone` on the enrollment
scenario. -/
theorem working_memory_monotone_witness :
    ∃ r, run_full 10 [fGrad, fCarol] [ruleGrad] "priority" = some r ∧
      (∃ l, r.wm = [fGrad, fCarol] ++ l) ∧ ∀ c ∈ r.trace, ∃ l, r.wm = c.wm ++ l := by
  cases e : run_full 10 [fGrad, fCarol] [ruleGrad] "priority" with
  | none =>
    have hs : (run_full 10 [fGrad, fCarol] [ruleGrad] "priority").isSome = true := by decide
    rw [e] at hs
    simp at hs
  | some r =>
    obtain ⟨hg, hr⟩ := working_memory_monotone 10 [fGrad, fCarol] [ruleGrad] "priority" r e
    exact ⟨r, rfl, hg, hr⟩

/-! ## C8: duplicate-freeness and exactly-once provenance -/

/-- C8: If the initial working memory is duplicate-free then working memory
is duplicate-free at the start of every cycle and at the end of the run,
and the provenance keys are exactly the final working memory in order —
each fact has exactly one provenance entry, written when it is first
asserted (the provenance list only ever grows from the initial `given`
entries), so re-deriving an existing fact neither duplicates it nor
creates or overwrites an entry. -/
theorem wm_duplicate_free_prov_once (uf : Nat) (start_wm : List PTerm) (rules : List Rule)
    (strategy : String) (r : RunResult) (hnd : start_wm.Nodup)
    (h : run_full uf start_wm rules strategy = some r) :
    r.wm.Nodup ∧ r.prov.map Prod.fst = r.wm ∧
      (∃ q, r.prov = initProv start_wm ++ q) ∧ ∀ c ∈ r.trace, c.wm.Nodup := by
  simp only [run_full] at h
  obtain ⟨ext, htr, _, _, hprovext, _, _, _, hnodup⟩ :=
    runLoop_invariants uf rules strategy max_steps start_wm [] (initProv start_wm) [] r h
  simp only [List.nil_append] at htr
  subst htr
  obtain ⟨g1, g2, g3⟩ := hnodup hnd (initProv_keys start_wm hnd)
  exact ⟨g1, g2, hprovext, g3⟩

/-- Closed witness for `wm_duplicate_free_prov_once` on the enrollment
scenario. -/
theorem wm_duplicate_free_prov_once_witness :
    ∃ r, run_full 10 [fGrad, fCarol] [ruleGrad] "priority" = some r ∧
      r.wm.Nodup ∧ r.prov.map Prod.fst = r.wm ∧
      (∃ q, r.prov = initProv [fGrad, fCarol] ++ q) ∧ ∀ c ∈ r.trace, c.wm.Nodup := by
  cases e : run_full 10 [fGrad, fCarol] [ruleGrad] "priority" with
  | none =>
    have hs : (run_full 10 [fGrad, fCarol] [ruleGrad] "priority").isSome = true := by decide
    rw [e] at hs
    simp at hs
  | some r =>
    obtain ⟨g1, g2, g3, g4⟩ := wm_duplicate_free_prov_once 10 [fGrad, fCarol] [ruleGrad]
      "priority" r (by decide) e
    exact ⟨r, rfl, g1, g2, g3, g4⟩

/-! ## The 100-no-op-rule run, evaluated symbolically -/

theorem mem_firedKeys (j : Nat) (e : Env) (k : Nat) :
    ((j, e) ∈ firedKeys k) ↔ j < k ∧ e = [] := by
  simp only [firedKeys, List.mem_map, List.mem_range, Prod.mk.injEq]
  constructor
  · rintro ⟨a, ha, rfl, rfl⟩
    exact ⟨ha, rfl⟩
  · rintro ⟨hj, rfl⟩
    exact ⟨j, hj, rfl, rfl⟩

theorem firedKeys_succ (k : Nat) :
    firedKeys k ++ [(k, ([] : Env))] = firedKeys (k + 1) := by
  simp [firedKeys, List.range_succ]

theorem buildAgendaFrom_noop (m : Nat) : ∀ i k,
    buildAgendaFrom 1 [] (firedKeys k) i (List.replicate m noopRule) =
      some (noopAgendaAux i m k) := by
  induction m with
  | zero => intro i k; rfl
  | succ n ih =>
    intro i k
    rw [List.replicate_succ]
    have hm : match_rules 1 noopRule.lhs [] ([] : Env) [] =
        some [(([] : Env), ([] : List PTerm))] := rfl
    rw [buildAgendaFrom, hm, ih (i + 1) k]
    simp only [noopAgendaAux, get_activation_key, sortPairs, List.filterMap_cons,
      List.filterMap_nil]
    by_cases hik : i < k
    · have hmem : ((i, ([] : Env)) ∈ firedKeys k) := (mem_firedKeys i [] k).mpr ⟨hik, rfl⟩
      simp [hmem, hik]
    · have hmem : ¬ ((i, ([] : Env)) ∈ firedKeys k) :=
        fun hmem => hik ((mem_firedKeys i [] k).mp hmem).1
      simp [hmem, hik, noopAct]

theorem noopAgendaAux_idx (m : Nat) : ∀ i k a, a ∈ noopAgendaAux i m k → i ≤ a.idx := by
  induction m with
  | zero =>
    intro i k a h
    simp [noopAgendaAux] at h
  | succ n ih =>
    intro i k a h
    rw [noopAgendaAux] at h
    rcases List.mem_append.mp h with h1 | h2
    · by_cases hik : i < k
      · simp [hik] at h1
      · rw [if_neg hik, List.mem_singleton] at h1
        subst h1
        exact Nat.le_refl i
    · exact Nat.le_of_succ_le (ih (i + 1) k a h2)

theorem noopAgendaAux_shape (m : Nat) : ∀ i k, i ≤ k → k < i + m →
    ∃ tail, noopAgendaAux i m k = noopAct k :: tail ∧ ∀ a ∈ tail, k < a.idx := by
  induction m with
  | zero => intro i k h1 h2; omega
  | succ n ih =>
    intro i k h1 h2
    rw [noopAgendaAux]
    by_cases hik : i < k
    · rw [if_pos hik, List.nil_append]
      exact ih (i + 1) k hik (by omega)
    · have hik2 : i = k := by omega
      subst hik2
      rw [if_neg hik, List.singleton_append]
      refine ⟨noopAgendaAux (i + 1) n i, rfl, ?_⟩
      intro a ha
      have := noopAgendaAux_idx n (i + 1) i a ha
      omega

theorem pymin_stays (k : Act → Nat) :
    ∀ (ys : List Act) (x : Act), (∀ y ∈ ys, ¬ k y < k x) → pymin k x ys = x := by
  intro ys
  induction ys with
  | nil => intro x _; rfl
  | cons y ys ih =>
    intro x h
    rw [pymin, if_neg (h y (by simp))]
    exact ih x fun z hz => h z (by simp [hz])

theorem noop_runLoop (f : Nat) : ∀ k tr, f + k = 100 →
    ∃ tr2, runLoop 1 noopRules "order" f [] (firedKeys k) [] tr =
      some ⟨[], [], Halt.stepLimit, tr2⟩ := by
  induction f with
  | zero => intro k tr _; exact ⟨tr, rfl⟩
  | succ n ih =>
    intro k tr h
    obtain ⟨tail, hshape, htail⟩ := noopAgendaAux_shape 100 0 k (Nat.zero_le k) (by omega)
    have hag : buildAgenda 1 noopRules [] (firedKeys k) = some (noopAct k :: tail) := by
      rw [buildAgenda, show noopRules = List.replicate 100 noopRule from rfl,
        buildAgendaFrom_noop, hshape]
    have hsel : select_rule (noopAct k :: tail) "order" = some (noopAct k) := by
      rw [select_rule]
      rw [if_neg (by decide), if_neg (by decide), if_pos rfl]
      rw [pymin_stays (fun x => x.idx) tail (noopAct k)
        (fun y hy => by have := htail y hy; simp only [noopAct]; omega)]
    rw [runLoop]
    rw [hag]
    simp only [hsel]
    have happ : applyAct (noopAct k) [] [] = ([], []) := rfl
    simp only [happ]
    have hkey : (noopAct k).key = (k, ([] : Env)) := rfl
    rw [hkey, firedKeys_succ]
    exact ih (k + 1) _ (by omega)

theorem noop_run_full :
    ∃ tr2, run_full 1 [] noopRules "order" = some ⟨[], [], Halt.stepLimit, tr2⟩ := by
  obtain ⟨tr2, hrun⟩ := noop_runLoop 100 0 [] rfl
  exact ⟨tr2, hrun⟩

/-! ## C5: terminal outcomes -/

/-- C5 (amended): under a known strategy, the engine loop has exactly the
two terminal outcomes — a normal halt on an empty agenda and a step-limit
halt when the iteration ceiling is exhausted; the unknown-strategy crash
cannot occur. -/
theorem run_halt_two_outcomes (uf : Nat) (start_wm : List PTerm) (rules : List Rule)
    (strategy : String) (r : RunResult)
    (hstrat : strategy = "priority" ∨ strategy = "specificity" ∨ strategy = "order")
    (h : run_full uf start_wm rules strategy = some r) :
    r.halt = Halt.normal ∨ r.halt = Halt.stepLimit := by
  simp only [run_full] at h
  obtain ⟨_, _, _, _, _, _, _, hhalt, _⟩ :=
    runLoop_invariants uf rules strategy max_steps start_wm [] (initProv start_wm) [] r h
  exact hhalt hstrat

/-- Closed witness for `run_halt_two_outcomes` on the enrollment
scenario. -/
theorem run_halt_two_outcomes_witness :
    ∃ r, run_full 10 [fGrad, fCarol] [ruleGrad] "priority" = some r ∧
      (r.halt = Halt.normal ∨ r.halt = Halt.stepLimit) := by
  cases e : run_full 10 [fGrad, fCarol] [ruleGrad] "priority" with
  | none =>
    have hs : (run_full 10 [fGrad, fCarol] [ruleGrad] "priority").isSome = true := by decide
    rw [e] at hs
    simp at hs
  | some r =>
    exact ⟨r, rfl, run_halt_two_outcomes 10 [fGrad, fCarol] [ruleGrad] "priority" r
      (Or.inl rfl) e⟩

/-- C5 counterexample: the value `run_ps` returns does not let a caller
distinguish the two halts.  100 no-op rules fire 100 times and halt at the
step limit; an empty rule base halts normally at once; both runs return
exactly the same `(wm, provenance)` result. -/
theorem run_result_not_distinguishing :
    ((run_full 1 [] noopRules "order").map fun x => (x.wm, x.prov, x.halt)) =
      some ([], [], Halt.stepLimit) ∧
    ((run_full 1 [] ([] : List Rule) "order").map fun x => (x.wm, x.prov, x.halt)) =
      some ([], [], Halt.normal) ∧
    run_ps 1 [] noopRules "order" = run_ps 1 [] [] "order" := by
  have h1 : ((run_full 1 [] noopRules "order").map fun x => (x.wm, x.prov, x.halt)) =
      some ([], [], Halt.stepLimit) := by
    obtain ⟨tr2, hr⟩ := noop_run_full
    rw [hr]
    rfl
  have h2 : ((run_full 1 [] ([] : List Rule) "order").map fun x => (x.wm, x.prov, x.halt)) =
      some ([], [], Halt.normal) := by decide
  refine ⟨h1, h2, ?_⟩
  simp only [run_ps]
  cases e1 : run_full 1 [] noopRules "order" with
  | none => rw [e1] at h1; simp at h1
  | some r1 =>
    cases e2 : run_full 1 [] ([] : List Rule) "order" with
    | none => rw [e2] at h2; simp at h2
    | some r2 =>
      rw [e1] at h1
      rw [e2] at h2
      simp only [Option.map_some', Option.some.injEq, Prod.mk.injEq] at h1 h2
      obtain ⟨hw1, hp1, hh1⟩ := h1
      obtain ⟨hw2, hp2, hh2⟩ := h2
      simp [hw1, hp1, hh1, hw2, hp2, hh2]

/-! ## C4: unknown strategy -/

/-- C4 (amended): under an unknown strategy no rule ever fires — the run
either crashes on the first cycle whose agenda is non-empty (the Python
`TypeError` from unpacking `select_rule`'s `None`), or, when the very first
agenda is already empty, halts normally with working memory and provenance
unchanged; it never silently falls back to a default strategy. -/
theorem unknown_strategy_never_fires (uf : Nat) (start_wm : List PTerm) (rules : List Rule)
    (strategy : String) (r : RunResult)
    (h1 : strategy ≠ "priority") (h2 : strategy ≠ "specificity") (h3 : strategy ≠ "order")
    (h : run_full uf start_wm rules strategy = some r) :
    (r.halt = Halt.badStrategy ∨ r.halt = Halt.normal) ∧
    r.wm = start_wm ∧ r.prov = initProv start_wm ∧ r.trace.length = 1 := by
  simp only [run_full, max_steps] at h
  rw [show (100 : Nat) = 99 + 1 from rfl] at h
  rw [runLoop] at h
  cases hag : buildAgenda uf rules start_wm [] with
  | none => rw [hag] at h; cases h
  | some agenda =>
    rw [hag] at h
    cases agenda with
    | nil =>
      simp only at h
      cases h
      exact ⟨Or.inr rfl, rfl, rfl, rfl⟩
    | cons a ag =>
      have hsel : select_rule (a :: ag) strategy = none := by
        simp [select_rule, h1, h2, h3]
      simp only [hsel] at h
      cases h
      exact ⟨Or.inl rfl, rfl, rfl, rfl⟩

/-- Closed witness for `unknown_strategy_never_fires`: a rule base whose
first agenda is non-empty crashes under strategy `"bogus"` without firing
anything. -/
theorem unknown_strategy_never_fires_witness :
    ∃ r, run_full 2 [] chainRules "bogus" = some r ∧
      (r.halt = Halt.badStrategy ∨ r.halt = Halt.normal) ∧
      r.wm = [] ∧ r.prov = initProv [] ∧ r.trace.length = 1 := by
  cases e : run_full 2 [] chainRules "bogus" with
  | none =>
    have hs : (run_full 2 [] chainRules "bogus").isSome = true := by decide
    rw [e] at hs
    simp at hs
  | some r =>
    exact ⟨r, rfl, unknown_strategy_never_fires 2 [] chainRules "bogus" r
      (by decide) (by decide) (by decide) e⟩

/-- C4 counterexample: with the unknown strategy `"bogus"` and an input
whose first agenda is empty, the engine does not fail at all — it completes
the run normally and returns exactly what the known strategy `"order"`
returns on the same input. -/
theorem unknown_strategy_completes_counterexample :
    ("bogus" ≠ "priority" ∧ "bogus" ≠ "specificity" ∧ "bogus" ≠ "order") ∧
    run_ps 1 [] [] "bogus" = some (Except.ok ([], [])) ∧
    run_ps 1 [] [] "order" = some (Except.ok ([], [])) := by
  exact ⟨⟨by decide, by decide, by decide⟩, by decide, by decide⟩

/-! ## C7: unification symmetry -/

theorem cycEnv_no_answer : ∀ g,
    unify g (.str "?b") (.str "?a") cycEnv = none ∧
    unify g (.str "?c") (.str "?a") cycEnv = none := by
  intro g
  induction g with
  | zero => exact ⟨rfl, rfl⟩
  | succ n ih =>
    constructor
    · have h : unify (n + 1) (.str "?b") (.str "?a") cycEnv =
          unify n (.str "?c") (.str "?a") cycEnv := rfl
      rw [h, ih.2]
    · have h : unify (n + 1) (.str "?c") (.str "?a") cycEnv =
          unify n (.str "?b") (.str "?a") cycEnv := rfl
      rw [h, ih.1]

theorem unifyVarAux_mono (u u2 : PTerm → PTerm → Env → URes)
    (hu : ∀ A B E r, u A B E = some r → u2 A B E = some r) :
    ∀ X Y E r, unifyVarAux u X Y E = some r → unifyVarAux u2 X Y E = some r := by
  intro X Y E r h
  cases X with
  | tup ts => simpa [unifyVarAux] using h
  | str v =>
    simp only [unifyVarAux] at h ⊢
    by_cases hvy : PTerm.str v = Y
    · simpa [hvy] using h
    · simp only [hvy, if_neg, ite_false] at h ⊢
      cases hl : lookupB E v with
      | some b =>
        rw [hl] at h
        exact hu _ _ _ _ h
      | none =>
        rw [hl] at h
        cases Y with
        | tup _ => exact h
        | str s =>
          by_cases hs : is_var (.str s) = true
          · simp only [hs, if_pos, ite_true] at h ⊢
            cases hls : lookupB E s with
            | some tb => rw [hls] at h; exact hu _ _ _ _ h
            | none => rw [hls] at h; exact h
          · simp only [hs, if_neg, ite_false] at h ⊢
            exact h

theorem unifyListAux_mono (u u2 : PTerm → PTerm → Env → URes)
    (hu : ∀ A B E r, u A B E = some r → u2 A B E = some r) :
    ∀ ps ts E r, unifyListAux u ps ts E = some r → unifyListAux u2 ps ts E = some r := by
  intro ps
  induction ps with
  | nil =>
    intro ts E r h
    cases ts with
    | nil => exact h
    | cons t ts2 => exact h
  | cons p ps2 ih =>
    intro ts E r h
    cases ts with
    | nil => exact h
    | cons t ts2 =>
      simp only [unifyListAux] at h ⊢
      cases he : u p t E with
      | none => rw [he] at h; cases h
      | some o =>
        rw [hu _ _ _ _ he]
        rw [he] at h
        cases o with
        | none => exact h
        | some e2 => exact ih ts2 e2 r h

theorem unify_mono : ∀ (g : Nat) (A B : PTerm) (E : Env) (r : Option Env),
    unify g A B E = some r → unify (g + 1) A B E = some r := by
  intro g
  induction g with
  | zero => intro A B E r h; cases h
  | succ n ih =>
    intro A B E r h
    simp only [unify] at h ⊢
    by_cases hab : A = B
    · simpa [hab] using h
    · simp only [hab, if_neg, ite_false] at h ⊢
      by_cases hva : is_var A = true
      · simp only [hva, if_pos, ite_true] at h ⊢
        exact unifyVarAux_mono _ _ ih _ _ _ _ h
      · simp only [hva, if_neg, ite_false] at h ⊢
        by_cases hvb : is_var B = true
        · simp only [hvb, if_pos, ite_true] at h ⊢
          exact unifyVarAux_mono _ _ ih _ _ _ _ h
        · simp only [hvb, if_neg, ite_false] at h ⊢
          cases A with
          | str a => exact h
          | tup ps =>
            cases B with
            | str b => exact h
            | tup ts =>
              by_cases hlen : ps.length = ts.length
              · simp only [hlen, if_pos, ite_true] at h ⊢
                exact unifyListAux_mono _ _ ih _ _ _ _ h
              · simpa [hlen] using h

theorem unify_mono_le {g g2 : Nat} (hle : g ≤ g2) :
    ∀ (A B : PTerm) (E : Env) (r : Option Env),
      unify g A B E = some r → unify g2 A B E = some r := by
  induction hle with
  | refl => intro A B E r h; exact h
  | step _ ih => intro A B E r h; exact unify_mono _ _ _ _ _ (ih A B E r h)

theorem unify_det {g g2 : Nat} {A B : PTerm} {E : Env} {r r2 : Option Env}
    (h1 : unify g A B E = some r) (h2 : unify g2 A B E = some r2) : r = r2 := by
  rcases Nat.le_total g g2 with hle | hle
  · have := unify_mono_le hle A B E r h1
    rw [this] at h2
    exact Option.some.inj h2
  · have := unify_mono_le hle A B E r2 h2
    rw [this] at h1
    exact (Option.some.inj h1).symm

theorem reach_trans {E : Env} {a b c : PTerm} (h1 : ReachT E a b) (h2 : ReachT E b c) :
    ReachT E a c := by
  induction h1 with
  | refl => exact h2
  | step s t u hs hl _ ih => exact ReachT.step s t c hs hl (ih h2)

theorem reach_const {E : Env} {X c : PTerm} (h : ReachT E X c) (hx : is_var X = false) :
    c = X := by
  cases h with
  | refl => rfl
  | step s t u hs hl hr => rw [hs] at hx; cases hx

theorem reach_bound_inv {E : Env} {v : String} {p c : PTerm}
    (hl : lookupB E v = some p) (h : ReachT E (.str v) c) :
    c = .str v ∨ ReachT E p c := by
  cases h with
  | refl => exact Or.inl rfl
  | step s t u hs hlk hr =>
    rw [hl] at hlk
    cases hlk
    exact Or.inr hr

theorem compat_symm {E : Env} {X Y : PTerm} : Compat E X Y ↔ Compat E Y X := by
  unfold Compat
  constructor
  · rintro (⟨c, h1, h2⟩ | h | h)
    · exact Or.inl ⟨c, h2, h1⟩
    · exact Or.inr (Or.inr h)
    · exact Or.inr (Or.inl h)
  · rintro (⟨c, h1, h2⟩ | h | h)
    · exact Or.inl ⟨c, h2, h1⟩
    · exact Or.inr (Or.inr h)
    · exact Or.inr (Or.inl h)

theorem compat_step {E : Env} {v : String} {p Y : PTerm}
    (hv : is_var (.str v) = true) (hl : lookupB E v = some p) :
    Compat E (.str v) Y ↔ Compat E p Y := by
  constructor
  · rintro (⟨c, hxc, hyc⟩ | ⟨s, hxs, hsv, hsn⟩ | hy)
    · rcases reach_bound_inv hl hxc with heq | hpc
      · subst heq
        exact Or.inl ⟨p, ReachT.refl p,
          reach_trans hyc (ReachT.step v p p hv hl (ReachT.refl p))⟩
      · exact Or.inl ⟨c, hpc, hyc⟩
    · rcases reach_bound_inv hl hxs with heq | hps
      · cases heq
        rw [hl] at hsn
        cases hsn
      · exact Or.inr (Or.inl ⟨s, hps, hsv, hsn⟩)
    · exact Or.inr (Or.inr hy)
  · rintro (⟨c, hpc, hyc⟩ | ⟨s, hps, hsv, hsn⟩ | hy)
    · exact Or.inl ⟨c, ReachT.step v p c hv hl hpc, hyc⟩
    · exact Or.inr (Or.inl ⟨s, ReachT.step v p (.str s) hv hl hps, hsv, hsn⟩)
    · exact Or.inr (Or.inr hy)

theorem reach_unbound {E : Env} {x : String} {b : PTerm}
    (hx : lookupB E x = none) (h : ReachT E (.str x) b) : b = .str x := by
  cases h with
  | refl => rfl
  | step s t u hs hl hr => rw [hx] at hl; cases hl

theorem reach_linear {E : Env} : ∀ {a b : PTerm}, ReachT E a b →
    ∀ {c : PTerm}, ReachT E a c → ReachT E b c ∨ ReachT E c b := by
  intro a b h1
  induction h1 with
  | refl => intro c h2; exact Or.inl h2
  | step s t u hs hl hr ih =>
    intro c h2
    rcases reach_bound_inv hl h2 with rfl | h2t
    · exact Or.inr (ReachT.step s t u hs hl hr)
    · exact ih h2t

theorem meets_symm {E : Env} {a b : PTerm} (h : Meets E a b) : Meets E b a := by
  obtain ⟨c, h1, h2⟩ := h
  exact ⟨c, h2, h1⟩

theorem meets_of_reach {E : Env} {a b : PTerm} (h : ReachT E a b) : Meets E a b :=
  ⟨b, h, ReachT.refl b⟩

theorem reach_meets {E : Env} {a b c : PTerm} (h : ReachT E a b) (h2 : Meets E b c) :
    Meets E a c := by
  obtain ⟨d, hb, hc⟩ := h2
  exact ⟨d, reach_trans h hb, hc⟩

theorem meets_trans {E : Env} {a b c : PTerm} (h1 : Meets E a b) (h2 : Meets E b c) :
    Meets E a c := by
  obtain ⟨d1, ha, hb1⟩ := h1
  obtain ⟨d2, hb2, hc⟩ := h2
  rcases reach_linear hb1 hb2 with h | h
  · exact ⟨d2, reach_trans ha h, hc⟩
  · exact ⟨d1, ha, reach_trans hc h⟩

theorem meets_unbound_iff {E : Env} {x : String} (hx : lookupB E x = none) {a : PTerm} :
    Meets E a (.str x) ↔ ReachT E a (.str x) := by
  constructor
  · rintro ⟨c, hac, hxc⟩
    rw [reach_unbound hx hxc] at hac
    exact hac
  · intro h
    exact meets_of_reach h

theorem reach_value_unique {E : Env} {a u v : PTerm} (hu : is_var u = false)
    (hv : is_var v = false) (h1 : ReachT E a u) (h2 : ReachT E a v) : u = v := by
  rcases reach_linear h1 h2 with h | h
  · exact (reach_const h hu).symm
  · exact reach_const h hv

theorem reach_value_var {E : Env} {a u : PTerm} {x : String} (hu : is_var u = false)
    (h1 : ReachT E a u) (hx : lookupB E x = none) (h2 : ReachT E a (.str x)) :
    u = .str x := by
  rcases reach_linear h1 h2 with h | h
  · exact (reach_const h hu).symm
  · exact reach_unbound hx h

theorem unb_sink_unique {E : Env} {a : PTerm} {x s : String}
    (hx : lookupB E x = none) (h1 : ReachT E a (.str x))
    (hs : lookupB E s = none) (h2 : ReachT E a (.str s)) : x = s := by
  rcases reach_linear h1 h2 with h | h
  · cases reach_unbound hx h
    rfl
  · cases reach_unbound hs h
    rfl

theorem lookupB_append_of_some {e : Env} {y : String} {v : PTerm}
    (h : lookupB e y = some v) (x : String) (t : PTerm) :
    lookupB (e ++ [(x, t)]) y = some v := by
  induction e with
  | nil => cases h
  | cons kv rest ih =>
    simp only [lookupB] at h ⊢
    by_cases hk : kv.1 = y
    · rw [if_pos hk] at h ⊢
      exact h
    · rw [if_neg hk] at h ⊢
      exact ih h

theorem lookupB_append_of_none {e : Env} {y : String}
    (h : lookupB e y = none) (x : String) (t : PTerm) :
    lookupB (e ++ [(x, t)]) y = if x = y then some t else none := by
  induction e with
  | nil => rfl
  | cons kv rest ih =>
    simp only [lookupB] at h ⊢
    by_cases hk : kv.1 = y
    · rw [if_pos hk] at h
      cases h
    · rw [if_neg hk] at h ⊢
      exact ih h

theorem lookupB_append_none_iff {e : Env} {x y : String} {t : PTerm} :
    lookupB (e ++ [(x, t)]) y = none ↔ lookupB e y = none ∧ x ≠ y := by
  constructor
  · intro h
    cases he : lookupB e y with
    | some v => rw [lookupB_append_of_some he x t] at h; cases h
    | none =>
      rw [lookupB_append_of_none he x t] at h
      refine ⟨rfl, ?_⟩
      intro hxy
      rw [if_pos hxy] at h
      cases h
  · rintro ⟨he, hxy⟩
    rw [lookupB_append_of_none he x t, if_neg hxy]

theorem reach_mono_append {e : Env} {x : String} {t : PTerm} :
    ∀ {a b : PTerm}, ReachT e a b → ReachT (e ++ [(x, t)]) a b := by
  intro a b h
  induction h with
  | refl => exact ReachT.refl _
  | step s p u hs hl hr ih => exact ReachT.step s p u hs (lookupB_append_of_some hl x t) ih

theorem reach_append_iff {e : Env} {x : String} (hx : lookupB e x = none)
    (hvx : is_var (.str x) = true) (t : PTerm) :
    ∀ {a b : PTerm},
      ReachT (e ++ [(x, t)]) a b ↔ ReachT e a b ∨ (ReachT e a (.str x) ∧ ReachT e t b) := by
  intro a b
  constructor
  · intro h
    induction h with
    | refl => exact Or.inl (ReachT.refl _)
    | step s p u hs hl hr ih =>
      cases hes : lookupB e s with
      | some v =>
        have : p = v := by
          rw [lookupB_append_of_some hes x t] at hl
          exact (Option.some.inj hl).symm
        subst this
        rcases ih with h1 | ⟨h1, h2⟩
        · exact Or.inl (ReachT.step s p u hs hes h1)
        · exact Or.inr ⟨ReachT.step s p (.str x) hs hes h1, h2⟩
      | none =>
        rw [lookupB_append_of_none hes x t] at hl
        by_cases hxs : x = s
        · subst hxs
          rw [if_pos rfl] at hl
          cases hl
          rcases ih with h1 | ⟨_, h2⟩
          · exact Or.inr ⟨ReachT.refl _, h1⟩
          · exact Or.inr ⟨ReachT.refl _, h2⟩
        · rw [if_neg hxs] at hl
          cases hl
  · rintro (h | ⟨h1, h2⟩)
    · exact reach_mono_append h
    · have hstep : ReachT (e ++ [(x, t)]) (.str x) b := by
        refine ReachT.step x t b hvx ?_ (reach_mono_append h2)
        rw [lookupB_append_of_none hx x t, if_pos rfl]
      exact reach_trans (reach_mono_append h1) hstep

theorem erel_refl (e : Env) : ERel e e :=
  ⟨fun _ _ _ => Iff.rfl, fun _ _ => Iff.rfl, fun _ => Iff.rfl⟩

theorem trel_refl (e1 e2 : Env) (a : PTerm) : TRel e1 e2 a a :=
  Or.inl ⟨a, ReachT.refl a, ReachT.refl a⟩

theorem trel_nonvar_eq {e1 e2 : Env} {a b : PTerm} (ha : is_var a = false)
    (hb : is_var b = false) (h : TRel e1 e2 a b) : a = b := by
  rcases h with ⟨u, h1, h2⟩ | ⟨x, y, h1, h2, hvx, hvy, _⟩
  · rw [← reach_const h1 ha, ← reach_const h2 hb]
  · have hxa := reach_const h1 ha
    rw [← hxa] at ha
    rw [hvx] at ha
    cases ha

theorem trel_var_unb_nonvar {e1 e2 : Env} {x : String} {b : PTerm}
    (hvx : is_var (.str x) = true) (hx : lookupB e1 x = none)
    (hb : is_var b = false) (h : TRel e1 e2 (.str x) b) : False := by
  rcases h with ⟨u, h1, h2⟩ | ⟨x', y, h1, h2, hvx', hvy, _⟩
  · have hu := reach_unbound hx h1
    have hub := reach_const h2 hb
    rw [hu] at hub
    rw [← hub] at hb
    rw [hvx] at hb
    cases hb
  · have hyb := reach_const h2 hb
    rw [← hyb] at hb
    rw [hvy] at hb
    cases hb

theorem trel_nonvar_var_unb {e1 e2 : Env} {a : PTerm} {y : String}
    (ha : is_var a = false) (hvy : is_var (.str y) = true) (hy : lookupB e2 y = none)
    (h : TRel e1 e2 a (.str y)) : False := by
  rcases h with ⟨u, h1, h2⟩ | ⟨x, y', h1, h2, hvx, hvy', _⟩
  · have hu := reach_const h1 ha
    have hu2 := reach_unbound hy h2
    rw [hu2] at hu
    rw [hu] at hvy
    rw [ha] at hvy
    cases hvy
  · have hxa := reach_const h1 ha
    rw [← hxa] at ha
    rw [hvx] at ha
    cases ha

theorem trel_unb_unb_meets {e1 e2 : Env} {x y : String}
    (hx : lookupB e1 x = none) (hy : lookupB e2 y = none)
    (h : TRel e1 e2 (.str x) (.str y)) : Meets e1 (.str x) (.str y) := by
  rcases h with ⟨u, h1, h2⟩ | ⟨x', y', h1, h2, hvx', hvy', hm⟩
  · have hu1 := reach_unbound hx h1
    have hu2 := reach_unbound hy h2
    rw [hu1] at hu2
    rw [hu2]
    exact ⟨_, ReachT.refl _, ReachT.refl _⟩
  · have h1' := reach_unbound hx h1
    have h2' := reach_unbound hy h2
    rw [h1', h2'] at hm
    exact hm

theorem reach_unb_transfer {e1 e2 : Env} (h : ERel e1 e2) {x1 x2 : String} {a : PTerm}
    (hx1 : lookupB e1 x1 = none) (hx2 : lookupB e2 x2 = none)
    (hcoh : Meets e1 (.str x1) (.str x2)) :
    ReachT e1 a (.str x1) ↔ ReachT e2 a (.str x2) := by
  constructor
  · intro hr
    have hm : Meets e1 a (.str x2) := meets_trans (meets_of_reach hr) hcoh
    exact (meets_unbound_iff hx2).mp ((h.2.1 _ _).mp hm)
  · intro hr
    have hm : Meets e2 a (.str x1) :=
      meets_trans (meets_of_reach hr) (meets_symm ((h.2.1 _ _).mp hcoh))
    exact (meets_unbound_iff hx1).mp ((h.2.1 _ _).mpr hm)

theorem trel_deref_right {e1 e2 : Env} (he : ERel e1 e2) {a tb : PTerm} {y : String}
    (hvy : is_var (.str y) = true) (hlk : lookupB e2 y = some tb)
    (h : TRel e1 e2 a (.str y)) : TRel e1 e2 a tb := by
  have hedge2 : Meets e2 (.str y) tb :=
    ⟨tb, ReachT.step y tb tb hvy hlk (ReachT.refl tb), ReachT.refl tb⟩
  have hedge1 : Meets e1 (.str y) tb := (he.2.1 _ _).mpr hedge2
  rcases h with ⟨u, h1, h2⟩ | ⟨x, y', h1, h2, hvx, hvy', hm⟩
  · rcases reach_bound_inv hlk h2 with hu | h2'
    · subst hu
      by_cases hvtb : is_var tb = true
      · cases tb with
        | tup ts => rw [is_var] at hvtb; cases hvtb
        | str z =>
          exact Or.inr ⟨y, z, h1, ReachT.refl _, hvy, hvtb, hedge1⟩
      · obtain ⟨c, hc1, hc2⟩ := hedge1
        have hctb := reach_const hc2 (by simpa using hvtb)
        rw [hctb] at hc1
        exact Or.inl ⟨tb, reach_trans h1 hc1, ReachT.refl tb⟩
    · exact Or.inl ⟨u, h1, h2'⟩
  · rcases reach_bound_inv hlk h2 with hu | h2'
    · have hy' : y' = y := by
        injection hu
      rw [hy'] at hm
      by_cases hvtb : is_var tb = true
      · cases tb with
        | tup ts => rw [is_var] at hvtb; cases hvtb
        | str z =>
          exact Or.inr ⟨x, z, h1, ReachT.refl _, hvx, hvtb, meets_trans hm hedge1⟩
      · have hrytb : ReachT e1 (.str y) tb := by
          obtain ⟨c, hc1, hc2⟩ := hedge1
          have hctb := reach_const hc2 (by simpa using hvtb)
          rw [hctb] at hc1
          exact hc1
        obtain ⟨c, hxc, hyc⟩ := hm
        have hctb : ReachT e1 c tb := by
          rcases reach_linear hyc hrytb with hh | hh
          · exact hh
          · have hceq := reach_const hh (by simpa using hvtb)
            rw [hceq]
            exact ReachT.refl _
        exact Or.inl ⟨tb, reach_trans h1 (reach_trans hxc hctb), ReachT.refl tb⟩
    · exact Or.inr ⟨x, y', h1, h2', hvx, hvy', hm⟩

theorem trel_deref_left {e1 e2 : Env} (he : ERel e1 e2) {b ta : PTerm} {x : String}
    (hvx : is_var (.str x) = true) (hlk : lookupB e1 x = some ta)
    (h : TRel e1 e2 (.str x) b) : TRel e1 e2 ta b := by
  have hedge1 : ReachT e1 (.str x) ta := ReachT.step x ta ta hvx hlk (ReachT.refl ta)
  rcases h with ⟨u, h1, h2⟩ | ⟨x', y', h1, h2, hvx', hvy', hm⟩
  · rcases reach_bound_inv hlk h1 with hu | h1'
    · subst hu
      by_cases hvta : is_var ta = true
      · cases ta with
        | tup ts => rw [is_var] at hvta; cases hvta
        | str z =>
          exact Or.inr ⟨z, x, ReachT.refl _, h2, hvta, hvx,
            meets_symm (meets_of_reach hedge1)⟩
      · have h2ta : ReachT e2 (.str x) ta :=
          (he.1 (.str x) ta (by simpa using hvta)).mp hedge1
        exact Or.inl ⟨ta, ReachT.refl ta, reach_trans h2 h2ta⟩
    · exact Or.inl ⟨u, h1', h2⟩
  · rcases reach_bound_inv hlk h1 with hu | h1'
    · have hx' : x' = x := by
        injection hu
      subst hx'
      by_cases hvta : is_var ta = true
      · cases ta with
        | tup ts => rw [is_var] at hvta; cases hvta
        | str z =>
          exact Or.inr ⟨z, y', ReachT.refl _, h2, hvta, hvy',
            meets_trans (meets_symm (meets_of_reach hedge1)) hm⟩
      · obtain ⟨c, hxc, hy'c⟩ := hm
        have hcta : ReachT e1 c ta := by
          rcases reach_linear hxc hedge1 with hh | hh
          · exact hh
          · have := reach_const hh (by simpa using hvta)
            subst this
            exact ReachT.refl _
        have h1yta : ReachT e1 (.str y') ta := reach_trans hy'c hcta
        have h2yta : ReachT e2 (.str y') ta :=
          (he.1 (.str y') ta (by simpa using hvta)).mp h1yta
        exact Or.inl ⟨ta, ReachT.refl ta, reach_trans h2 h2yta⟩
    · exact Or.inr ⟨x', y', h1', h2, hvx', hvy', hm⟩

theorem reach_val_append_vv {e : Env} {x w : String} (hx : lookupB e x = none)
    (hvx : is_var (.str x) = true) (hvw : is_var (.str w) = true)
    (hw : lookupB e w = none) :
    ∀ {a u : PTerm}, is_var u = false →
      (ReachT (e ++ [(x, .str w)]) a u ↔ ReachT e a u) := by
  intro a u hu
  rw [reach_append_iff hx hvx (.str w)]
  constructor
  · rintro (h | ⟨h1, h2⟩)
    · exact h
    · have hw2 := reach_unbound hw h2
      rw [hw2] at hu
      rw [hu] at hvw
      cases hvw
  · intro h
    exact Or.inl h

theorem unb_append_vv {e : Env} {x w : String} (hx : lookupB e x = none)
    (hvx : is_var (.str x) = true) (hvw : is_var (.str w) = true)
    (hw : lookupB e w = none) (hxw : x ≠ w) :
    ∀ {a : PTerm}, Unb (e ++ [(x, .str w)]) a ↔ Unb e a := by
  intro a
  constructor
  · rintro ⟨s, hr, hvs, hns⟩
    obtain ⟨hes, hxs⟩ := lookupB_append_none_iff.mp hns
    rcases (reach_append_iff hx hvx (.str w)).mp hr with h | ⟨h1, h2⟩
    · exact ⟨s, h, hvs, hes⟩
    · exact ⟨x, h1, hvx, hx⟩
  · rintro ⟨s, hr, hvs, hns⟩
    by_cases hsx : s = x
    · subst hsx
      refine ⟨w, ?_, hvw, lookupB_append_none_iff.mpr ⟨hw, hxw⟩⟩
      exact (reach_append_iff hx hvx (.str w)).mpr (Or.inr ⟨hr, ReachT.refl _⟩)
    · refine ⟨s, (reach_append_iff hx hvx (.str w)).mpr (Or.inl hr), hvs,
        lookupB_append_none_iff.mpr ⟨hns, ?_⟩⟩
      intro hxs
      exact hsx hxs.symm

theorem meets_append_vv {e : Env} {x w : String} (hx : lookupB e x = none)
    (hvx : is_var (.str x) = true) (hw : lookupB e w = none) :
    ∀ {a b : PTerm}, Meets (e ++ [(x, .str w)]) a b ↔
      Meets e a b ∨ (ReachT e a (.str x) ∧ ReachT e b (.str w)) ∨
      (ReachT e b (.str x) ∧ ReachT e a (.str w)) := by
  intro a b
  constructor
  · rintro ⟨c, hac, hbc⟩
    rcases (reach_append_iff hx hvx (.str w)).mp hac with h1 | ⟨h1, h1w⟩ <;>
      rcases (reach_append_iff hx hvx (.str w)).mp hbc with h2 | ⟨h2, h2w⟩
    · exact Or.inl ⟨c, h1, h2⟩
    · have hc := reach_unbound hw h2w
      rw [hc] at h1
      exact Or.inr (Or.inr ⟨h2, h1⟩)
    · have hc := reach_unbound hw h1w
      rw [hc] at h2
      exact Or.inr (Or.inl ⟨h1, h2⟩)
    · exact Or.inl ⟨.str x, h1, h2⟩
  · rintro (⟨c, h1, h2⟩ | ⟨h1, h2⟩ | ⟨h1, h2⟩)
    · exact ⟨c, reach_mono_append h1, reach_mono_append h2⟩
    · exact ⟨.str w, (reach_append_iff hx hvx (.str w)).mpr (Or.inr ⟨h1, ReachT.refl _⟩),
        (reach_append_iff hx hvx (.str w)).mpr (Or.inl h2)⟩
    · exact ⟨.str w, (reach_append_iff hx hvx (.str w)).mpr (Or.inl h2),
        (reach_append_iff hx hvx (.str w)).mpr (Or.inr ⟨h1, ReachT.refl _⟩)⟩

theorem reach_val_append_va {e : Env} {x : String} {u : PTerm} (hx : lookupB e x = none)
    (hvx : is_var (.str x) = true) (hu : is_var u = false) :
    ∀ {a v : PTerm}, is_var v = false →
      (ReachT (e ++ [(x, u)]) a v ↔ ReachT e a v ∨ (ReachT e a (.str x) ∧ v = u)) := by
  intro a v hv
  rw [reach_append_iff hx hvx u]
  constructor
  · rintro (h | ⟨h1, h2⟩)
    · exact Or.inl h
    · exact Or.inr ⟨h1, reach_const h2 hu⟩
  · rintro (h | ⟨h1, rfl⟩)
    · exact Or.inl h
    · exact Or.inr ⟨h1, ReachT.refl _⟩

theorem unb_append_va {e : Env} {x : String} {u : PTerm} (hx : lookupB e x = none)
    (hvx : is_var (.str x) = true) (hu : is_var u = false) :
    ∀ {a : PTerm}, Unb (e ++ [(x, u)]) a ↔ (Unb e a ∧ ¬ ReachT e a (.str x)) := by
  intro a
  constructor
  · rintro ⟨s, hr, hvs, hns⟩
    obtain ⟨hes, hxs⟩ := lookupB_append_none_iff.mp hns
    rcases (reach_append_iff hx hvx u).mp hr with h | ⟨h1, h2⟩
    · refine ⟨⟨s, h, hvs, hes⟩, ?_⟩
      intro hax
      exact hxs (unb_sink_unique hx hax hes h)
    · have hs := reach_const h2 hu
      rw [← hs] at hu
      rw [hvs] at hu
      cases hu
  · rintro ⟨⟨s, hr, hvs, hns⟩, hnx⟩
    have hsx : x ≠ s := by
      intro hxs
      subst hxs
      exact hnx hr
    exact ⟨s, (reach_append_iff hx hvx u).mpr (Or.inl hr), hvs,
      lookupB_append_none_iff.mpr ⟨hns, hsx⟩⟩

theorem meets_append_va {e : Env} {x : String} {u : PTerm} (hx : lookupB e x = none)
    (hvx : is_var (.str x) = true) (hu : is_var u = false) :
    ∀ {a b : PTerm}, Meets (e ++ [(x, u)]) a b ↔
      Meets e a b ∨ (ReachT e a (.str x) ∧ ReachT e b u) ∨
      (ReachT e b (.str x) ∧ ReachT e a u) := by
  intro a b
  constructor
  · rintro ⟨c, hac, hbc⟩
    rcases (reach_append_iff hx hvx u).mp hac with h1 | ⟨h1, h1u⟩ <;>
      rcases (reach_append_iff hx hvx u).mp hbc with h2 | ⟨h2, h2u⟩
    · exact Or.inl ⟨c, h1, h2⟩
    · have hc := reach_const h2u hu
      rw [hc] at h1
      exact Or.inr (Or.inr ⟨h2, h1⟩)
    · have hc := reach_const h1u hu
      rw [hc] at h2
      exact Or.inr (Or.inl ⟨h1, h2⟩)
    · exact Or.inl ⟨.str x, h1, h2⟩
  · rintro (⟨c, h1, h2⟩ | ⟨h1, h2⟩ | ⟨h1, h2⟩)
    · exact ⟨c, reach_mono_append h1, reach_mono_append h2⟩
    · exact ⟨u, (reach_append_iff hx hvx u).mpr (Or.inr ⟨h1, ReachT.refl _⟩),
        (reach_append_iff hx hvx u).mpr (Or.inl h2)⟩
    · exact ⟨u, (reach_append_iff hx hvx u).mpr (Or.inl h2),
        (reach_append_iff hx hvx u).mpr (Or.inr ⟨h1, ReachT.refl _⟩)⟩

theorem erel_bind_vv {e1 e2 : Env} (he : ERel e1 e2) {x1 w1 x2 w2 : String}
    (hvx1 : is_var (.str x1) = true) (hvw1 : is_var (.str w1) = true)
    (hvx2 : is_var (.str x2) = true) (hvw2 : is_var (.str w2) = true)
    (hx1 : lookupB e1 x1 = none) (hw1 : lookupB e1 w1 = none)
    (hx2 : lookupB e2 x2 = none) (hw2 : lookupB e2 w2 = none)
    (hne1 : x1 ≠ w1) (hne2 : x2 ≠ w2)
    (hcoh : (Meets e1 (.str x1) (.str x2) ∧ Meets e1 (.str w1) (.str w2)) ∨
            (Meets e1 (.str x1) (.str w2) ∧ Meets e1 (.str w1) (.str x2))) :
    ERel (e1 ++ [(x1, .str w1)]) (e2 ++ [(x2, .str w2)]) := by
  refine ⟨?_, ?_, ?_⟩
  · intro a u hu
    rw [reach_val_append_vv hx1 hvx1 hvw1 hw1 hu, reach_val_append_vv hx2 hvx2 hvw2 hw2 hu]
    exact he.1 a u hu
  · intro a b
    rw [meets_append_vv hx1 hvx1 hw1, meets_append_vv hx2 hvx2 hw2]
    rcases hcoh with ⟨hc1, hc2⟩ | ⟨hc1, hc2⟩
    · have t1 : ∀ c : PTerm, ReachT e1 c (.str x1) ↔ ReachT e2 c (.str x2) :=
        fun c => reach_unb_transfer he hx1 hx2 hc1
      have t2 : ∀ c : PTerm, ReachT e1 c (.str w1) ↔ ReachT e2 c (.str w2) :=
        fun c => reach_unb_transfer he hw1 hw2 hc2
      rw [he.2.1 a b, t1 a, t1 b, t2 a, t2 b]
    · have t1 : ∀ c : PTerm, ReachT e1 c (.str x1) ↔ ReachT e2 c (.str w2) :=
        fun c => reach_unb_transfer he hx1 hw2 hc1
      have t2 : ∀ c : PTerm, ReachT e1 c (.str w1) ↔ ReachT e2 c (.str x2) :=
        fun c => reach_unb_transfer he hw1 hx2 hc2
      rw [he.2.1 a b, t1 a, t1 b, t2 a, t2 b]
      tauto
  · intro a
    rw [unb_append_vv hx1 hvx1 hvw1 hw1 hne1, unb_append_vv hx2 hvx2 hvw2 hw2 hne2]
    exact he.2.2 a

theorem erel_bind_va {e1 e2 : Env} (he : ERel e1 e2) {x1 x2 : String} {u : PTerm}
    (hvx1 : is_var (.str x1) = true) (hvx2 : is_var (.str x2) = true)
    (hx1 : lookupB e1 x1 = none) (hx2 : lookupB e2 x2 = none)
    (hu : is_var u = false)
    (hcoh : Meets e1 (.str x1) (.str x2)) :
    ERel (e1 ++ [(x1, u)]) (e2 ++ [(x2, u)]) := by
  have t1 : ∀ c : PTerm, ReachT e1 c (.str x1) ↔ ReachT e2 c (.str x2) :=
    fun c => reach_unb_transfer he hx1 hx2 hcoh
  refine ⟨?_, ?_, ?_⟩
  · intro a v hv
    rw [reach_val_append_va hx1 hvx1 hu hv, reach_val_append_va hx2 hvx2 hu hv,
      he.1 a v hv, t1 a]
  · intro a b
    rw [meets_append_va hx1 hvx1 hu, meets_append_va hx2 hvx2 hu,
      he.2.1 a b, t1 a, t1 b, he.1 a u hu, he.1 b u hu]
  · intro a
    rw [unb_append_va hx1 hvx1 hu, unb_append_va hx2 hvx2 hu, he.2.2 a, t1 a]

theorem is_var_str {p : PTerm} (h : is_var p = true) :
    ∃ v, p = .str v := by
  cases p with
  | str s => exact ⟨s, rfl⟩
  | tup ts => rw [is_var] at h; cases h

theorem unify_eq_refl (g : Nat) (p : PTerm) (e : Env) :
    unify (g + 1) p p e = some (some e) := by
  simp [unify]

theorem unify_step_deref_p {g : Nat} {v : String} {t b : PTerm} {e : Env}
    (hne : PTerm.str v ≠ t) (hv : is_var (.str v) = true) (hl : lookupB e v = some b) :
    unify (g + 1) (.str v) t e = unify g b t e := by
  simp only [unify, if_neg hne, if_pos hv, unifyVarAux, hl]

theorem unify_step_deref_t {g : Nat} {v s : String} {tb : PTerm} {e : Env}
    (hne : PTerm.str v ≠ PTerm.str s) (hv : is_var (.str v) = true)
    (hlv : lookupB e v = none) (hvs : is_var (.str s) = true)
    (hls : lookupB e s = some tb) :
    unify (g + 1) (.str v) (.str s) e = unify g (.str v) tb e := by
  simp only [unify, if_neg hne, if_pos hv, unifyVarAux, hlv, if_pos hvs, hls]

theorem unify_bind_vv {g : Nat} {v s : String} {e : Env}
    (hne : PTerm.str v ≠ PTerm.str s) (hv : is_var (.str v) = true)
    (hlv : lookupB e v = none) (hvs : is_var (.str s) = true)
    (hls : lookupB e s = none) :
    unify (g + 1) (.str v) (.str s) e = some (some (e ++ [(v, .str s)])) := by
  simp only [unify, if_neg hne, if_pos hv, unifyVarAux, hlv, if_pos hvs, hls]

theorem unify_bind_va {g : Nat} {v : String} {t : PTerm} {e : Env}
    (hne : PTerm.str v ≠ t) (hv : is_var (.str v) = true)
    (hlv : lookupB e v = none) (ht : is_var t = false) :
    unify (g + 1) (.str v) t e = some (some (e ++ [(v, t)])) := by
  cases t with
  | str s =>
    simp only [unify, if_neg hne, if_pos hv, unifyVarAux, hlv, ht]
    simp
  | tup ts =>
    simp only [unify, if_neg hne, if_pos hv, unifyVarAux, hlv]

theorem unify_step_deref_t_swap {g : Nat} {p b : PTerm} {s : String} {e : Env}
    (hne : p ≠ .str s) (hp : is_var p = false) (hvs : is_var (.str s) = true)
    (hls : lookupB e s = some b) :
    unify (g + 1) p (.str s) e = unify g b p e := by
  have hne2 : PTerm.str s ≠ p := fun h => hne h.symm
  simp only [unify, if_neg hne, hp, Bool.false_eq_true, if_false, if_pos hvs,
    unifyVarAux, if_neg hne2, hls]

theorem unify_bind_rev {g : Nat} {p : PTerm} {s : String} {e : Env}
    (hne : p ≠ .str s) (hp : is_var p = false) (hvs : is_var (.str s) = true)
    (hls : lookupB e s = none) :
    unify (g + 1) p (.str s) e = some (some (e ++ [(s, p)])) := by
  have hne2 : PTerm.str s ≠ p := fun h => hne h.symm
  cases p with
  | str a =>
    have hpa : ¬ (is_var (.str a) = true) := by rw [hp]; exact Bool.false_ne_true
    simp only [unify, if_neg hne, hp, Bool.false_eq_true, if_false, if_pos hvs,
      unifyVarAux, if_neg hne2, hls, if_neg hpa]
  | tup ps =>
    have hptup : is_var (PTerm.tup ps) = false := rfl
    simp only [unify, if_neg hne, hptup, Bool.false_eq_true, if_false, if_pos hvs,
      unifyVarAux, if_neg hne2, hls]

theorem unify_tup_tup {g : Nat} {ps ts : List PTerm} {e : Env}
    (hne : PTerm.tup ps ≠ PTerm.tup ts) :
    unify (g + 1) (.tup ps) (.tup ts) e =
      if ps.length = ts.length then unifyListAux (unify g) ps ts e else some none := by
  simp only [unify, if_neg hne, is_var, Bool.false_eq_true, if_false]

theorem unify_fail_str_str {g : Nat} {a b : String} {e : Env}
    (hne : PTerm.str a ≠ PTerm.str b) (ha : is_var (.str a) = false)
    (hb : is_var (.str b) = false) :
    unify (g + 1) (.str a) (.str b) e = some none := by
  simp only [unify, if_neg hne, ha, hb, Bool.false_eq_true, if_false]

theorem unify_fail_str_tup {g : Nat} {a : String} {ts : List PTerm} {e : Env}
    (ha : is_var (.str a) = false) :
    unify (g + 1) (.str a) (.tup ts) e = some none := by
  have hne : PTerm.str a ≠ PTerm.tup ts := by intro h; cases h
  have httup : is_var (PTerm.tup ts) = false := rfl
  simp only [unify, if_neg hne, ha, httup, Bool.false_eq_true, if_false]

theorem unify_fail_tup_str {g : Nat} {ps : List PTerm} {b : String} {e : Env}
    (hb : is_var (.str b) = false) :
    unify (g + 1) (.tup ps) (.str b) e = some none := by
  have hne : PTerm.tup ps ≠ PTerm.str b := by intro h; cases h
  have hptup : is_var (PTerm.tup ps) = false := rfl
  simp only [unify, if_neg hne, hb, hptup, Bool.false_eq_true, if_false]

theorem trel_common_meets {e1 e2 : Env} (he : ERel e1 e2) {a b c : PTerm}
    (h1 : TRel e1 e2 a b) (h2 : TRel e1 e2 a c) : Meets e2 b c := by
  rcases h1 with ⟨u, hau, hbu⟩ | ⟨x, y, hax, hby, hvx, hvy, hmxy⟩ <;>
    rcases h2 with ⟨u', hau', hcu'⟩ | ⟨x', y', hax', hcy', hvx', hvy', hmxy'⟩
  · have hm1 : Meets e1 u u' := by
      rcases reach_linear hau hau' with h | h
      · exact meets_of_reach h
      · exact meets_symm (meets_of_reach h)
    have hm2 : Meets e2 u u' := (he.2.1 u u').mp hm1
    exact meets_trans (reach_meets hbu hm2) (meets_symm (meets_of_reach hcu'))
  · have hm1 : Meets e1 u (.str x') := by
      rcases reach_linear hau hax' with h | h
      · exact meets_of_reach h
      · exact meets_symm (meets_of_reach h)
    have hm2 : Meets e2 u (.str y') := (he.2.1 _ _).mp (meets_trans hm1 hmxy')
    exact meets_trans (reach_meets hbu hm2) (meets_symm (meets_of_reach hcy'))
  · have hm1 : Meets e1 (.str x) u' := by
      rcases reach_linear hax hau' with h | h
      · exact meets_of_reach h
      · exact meets_symm (meets_of_reach h)
    have hm2 : Meets e2 (.str y) u' := (he.2.1 _ _).mp (meets_trans (meets_symm hmxy) hm1)
    exact meets_trans (reach_meets hby hm2) (meets_symm (meets_of_reach hcu'))
  · have hm1 : Meets e1 (.str x) (.str x') := by
      rcases reach_linear hax hax' with h | h
      · exact meets_of_reach h
      · exact meets_symm (meets_of_reach h)
    have hm2 : Meets e2 (.str y) (.str y') :=
      (he.2.1 _ _).mp (meets_trans (meets_symm hmxy) (meets_trans hm1 hmxy'))
    exact meets_trans (reach_meets hby hm2) (meets_symm (meets_of_reach hcy'))

theorem trel_common_meets1 {e1 e2 : Env} (he : ERel e1 e2) {a b c : PTerm}
    (h1 : TRel e1 e2 a c) (h2 : TRel e1 e2 b c) : Meets e1 a b := by
  rcases h1 with ⟨u, hau, hcu⟩ | ⟨x, y, hax, hcy, hvx, hvy, hmxy⟩ <;>
    rcases h2 with ⟨u', hbu', hcu'⟩ | ⟨x', y', hbx', hcy', hvx', hvy', hmxy'⟩
  · have hm1 : Meets e2 u u' := by
      rcases reach_linear hcu hcu' with h | h
      · exact meets_of_reach h
      · exact meets_symm (meets_of_reach h)
    have hm2 : Meets e1 u u' := (he.2.1 u u').mpr hm1
    exact meets_trans (reach_meets hau hm2) (meets_symm (meets_of_reach hbu'))
  · have hm1 : Meets e2 u (.str y') := by
      rcases reach_linear hcu hcy' with h | h
      · exact meets_of_reach h
      · exact meets_symm (meets_of_reach h)
    have hm2 : Meets e1 u (.str y') := (he.2.1 _ _).mpr hm1
    exact meets_trans (reach_meets hau hm2)
      (meets_trans (meets_symm hmxy') (meets_symm (meets_of_reach hbx')))
  · have hm1 : Meets e2 (.str y) u' := by
      rcases reach_linear hcy hcu' with h | h
      · exact meets_of_reach h
      · exact meets_symm (meets_of_reach h)
    have hm2 : Meets e1 (.str y) u' := (he.2.1 _ _).mpr hm1
    exact meets_trans (reach_meets hax hmxy)
      (meets_trans hm2 (meets_symm (meets_of_reach hbu')))
  · have hm1 : Meets e2 (.str y) (.str y') := by
      rcases reach_linear hcy hcy' with h | h
      · exact meets_of_reach h
      · exact meets_symm (meets_of_reach h)
    have hm2 : Meets e1 (.str y) (.str y') := (he.2.1 _ _).mpr hm1
    exact meets_trans (reach_meets hax hmxy)
      (meets_trans hm2 (meets_trans (meets_symm hmxy') (meets_symm (meets_of_reach hbx'))))

theorem symout_fail : SymOut (none : Option Env) none := by
  constructor
  · intro f1 h
    cases h
  · intro f2 h
    cases h

theorem symout_succ {f1 f2 : Env} (h : ERel f1 f2) : SymOut (some f1) (some f2) := by
  constructor
  · intro g1 hg
    cases hg
    exact ⟨f2, rfl, h⟩
  · intro g2 hg
    cases hg
    exact ⟨f1, rfl, h⟩

theorem unify_sym_list {n : Nat} (IH : SymIH n) :
    ∀ (ps ts qs ss : List PTerm) (g1 g2 : Nat) (e1 e2 : Env) (r1 r2 : Option Env),
      g1 + g2 ≤ n → ERel e1 e2 →
      ((qs = ps ∧ ss = ts) ∨ (qs = ts ∧ ss = ps)) →
      unifyListAux (unify g1) ps ts e1 = some r1 →
      unifyListAux (unify g2) qs ss e2 = some r2 → SymOut r1 r2 := by
  intro ps
  induction ps with
  | nil =>
    intro ts qs ss g1 g2 e1 e2 r1 r2 hle he hor h1 h2
    cases ts with
    | nil =>
      rcases hor with ⟨rfl, rfl⟩ | ⟨rfl, rfl⟩ <;>
      · simp only [unifyListAux] at h1 h2
        cases h1
        cases h2
        exact symout_succ he
    | cons t ts' =>
      simp only [unifyListAux] at h1
      cases h1
      rcases hor with ⟨rfl, rfl⟩ | ⟨rfl, rfl⟩ <;>
      · simp only [unifyListAux] at h2
        cases h2
        exact symout_fail
  | cons p ps' ih =>
    intro ts qs ss g1 g2 e1 e2 r1 r2 hle he hor h1 h2
    cases ts with
    | nil =>
      simp only [unifyListAux] at h1
      cases h1
      rcases hor with ⟨rfl, rfl⟩ | ⟨rfl, rfl⟩ <;>
      · simp only [unifyListAux] at h2
        cases h2
        exact symout_fail
    | cons t ts' =>
      rcases hor with ⟨rfl, rfl⟩ | ⟨rfl, rfl⟩
      · simp only [unifyListAux] at h1 h2
        cases hu1 : unify g1 p t e1 with
        | none => rw [hu1] at h1; cases h1
        | some w1 =>
          rw [hu1] at h1
          cases hu2 : unify g2 p t e2 with
          | none => rw [hu2] at h2; cases h2
          | some w2 =>
            rw [hu2] at h2
            have hso := IH g1 g2 p t p t e1 e2 w1 w2 hle he
              (Or.inl ⟨trel_refl e1 e2 p, trel_refl e1 e2 t⟩) hu1 hu2
            cases w1 with
            | none =>
              cases w2 with
              | none =>
                cases h1
                cases h2
                exact symout_fail
              | some f2 =>
                obtain ⟨f1, hcontra, _⟩ := hso.2 f2 rfl
                cases hcontra
            | some f1 =>
              obtain ⟨f2, hw2, hef⟩ := hso.1 f1 rfl
              subst hw2
              exact ih ts' ps' ts' g1 g2 f1 f2 r1 r2 hle hef (Or.inl ⟨rfl, rfl⟩) h1 h2
      · simp only [unifyListAux] at h1 h2
        cases hu1 : unify g1 p t e1 with
        | none => rw [hu1] at h1; cases h1
        | some w1 =>
          rw [hu1] at h1
          cases hu2 : unify g2 t p e2 with
          | none => rw [hu2] at h2; cases h2
          | some w2 =>
            rw [hu2] at h2
            have hso := IH g1 g2 p t t p e1 e2 w1 w2 hle he
              (Or.inr ⟨trel_refl e1 e2 p, trel_refl e1 e2 t⟩) hu1 hu2
            cases w1 with
            | none =>
              cases w2 with
              | none =>
                cases h1
                cases h2
                exact symout_fail
              | some f2 =>
                obtain ⟨f1, hcontra, _⟩ := hso.2 f2 rfl
                cases hcontra
            | some f1 =>
              obtain ⟨f2, hw2, hef⟩ := hso.1 f1 rfl
              subst hw2
              exact ih ts' ts' ps' g1 g2 f1 f2 r1 r2 hle hef (Or.inr ⟨rfl, rfl⟩) h1 h2

theorem unify_sym_red1_derefp {n : Nat} (IH : SymIH n) {g1 g2 : Nat} {t q s b : PTerm}
    {v1 : String} {e1 e2 : Env} {r1 r2 : Option Env}
    (hle : (g1 + 1) + g2 ≤ n + 1) (he : ERel e1 e2)
    (hpr : PairRel e1 e2 (.str v1) t q s)
    (hne : PTerm.str v1 ≠ t) (hv : is_var (.str v1) = true) (hl : lookupB e1 v1 = some b)
    (h1 : unify (g1 + 1) (.str v1) t e1 = some r1)
    (h2 : unify g2 q s e2 = some r2) : SymOut r1 r2 := by
  rw [unify_step_deref_p hne hv hl] at h1
  refine IH g1 g2 b t q s e1 e2 r1 r2 (by omega) he ?_ h1 h2
  rcases hpr with ⟨hp, ht⟩ | ⟨hp, ht⟩
  · exact Or.inl ⟨trel_deref_left he hv hl hp, ht⟩
  · exact Or.inr ⟨trel_deref_left he hv hl hp, ht⟩

theorem unify_sym_red1_dereft {n : Nat} (IH : SymIH n) {g1 g2 : Nat} {q s tb : PTerm}
    {v1 s1 : String} {e1 e2 : Env} {r1 r2 : Option Env}
    (hle : (g1 + 1) + g2 ≤ n + 1) (he : ERel e1 e2)
    (hpr : PairRel e1 e2 (.str v1) (.str s1) q s)
    (hne : PTerm.str v1 ≠ PTerm.str s1) (hv : is_var (.str v1) = true)
    (hlv : lookupB e1 v1 = none) (hvs1 : is_var (.str s1) = true)
    (hls1 : lookupB e1 s1 = some tb)
    (h1 : unify (g1 + 1) (.str v1) (.str s1) e1 = some r1)
    (h2 : unify g2 q s e2 = some r2) : SymOut r1 r2 := by
  rw [unify_step_deref_t hne hv hlv hvs1 hls1] at h1
  refine IH g1 g2 (.str v1) tb q s e1 e2 r1 r2 (by omega) he ?_ h1 h2
  rcases hpr with ⟨hp, ht⟩ | ⟨hp, ht⟩
  · exact Or.inl ⟨hp, trel_deref_left he hvs1 hls1 ht⟩
  · exact Or.inr ⟨hp, trel_deref_left he hvs1 hls1 ht⟩

theorem unify_sym_red1_swap {n : Nat} (IH : SymIH n) {g1 g2 : Nat} {p q s tb : PTerm}
    {s1 : String} {e1 e2 : Env} {r1 r2 : Option Env}
    (hle : (g1 + 1) + g2 ≤ n + 1) (he : ERel e1 e2)
    (hpr : PairRel e1 e2 p (.str s1) q s)
    (hne : p ≠ .str s1) (hp : is_var p = false) (hvs1 : is_var (.str s1) = true)
    (hls1 : lookupB e1 s1 = some tb)
    (h1 : unify (g1 + 1) p (.str s1) e1 = some r1)
    (h2 : unify g2 q s e2 = some r2) : SymOut r1 r2 := by
  rw [unify_step_deref_t_swap hne hp hvs1 hls1] at h1
  refine IH g1 g2 tb p q s e1 e2 r1 r2 (by omega) he ?_ h1 h2
  rcases hpr with ⟨hp1, ht1⟩ | ⟨hp1, ht1⟩
  · exact Or.inr ⟨trel_deref_left he hvs1 hls1 ht1, hp1⟩
  · exact Or.inl ⟨trel_deref_left he hvs1 hls1 ht1, hp1⟩

theorem unify_sym_red2_derefq {n : Nat} (IH : SymIH n) {g1 g2 : Nat} {p t s b : PTerm}
    {v2 : String} {e1 e2 : Env} {r1 r2 : Option Env}
    (hle : g1 + (g2 + 1) ≤ n + 1) (he : ERel e1 e2)
    (hpr : PairRel e1 e2 p t (.str v2) s)
    (h1 : unify g1 p t e1 = some r1)
    (hne : PTerm.str v2 ≠ s) (hvq : is_var (.str v2) = true)
    (hlq : lookupB e2 v2 = some b)
    (h2 : unify (g2 + 1) (.str v2) s e2 = some r2) : SymOut r1 r2 := by
  rw [unify_step_deref_p hne hvq hlq] at h2
  refine IH g1 g2 p t b s e1 e2 r1 r2 (by omega) he ?_ h1 h2
  rcases hpr with ⟨hp, ht⟩ | ⟨hp, ht⟩
  · exact Or.inl ⟨trel_deref_right he hvq hlq hp, ht⟩
  · exact Or.inr ⟨hp, trel_deref_right he hvq hlq ht⟩

theorem unify_sym_red2_derefs {n : Nat} (IH : SymIH n) {g1 g2 : Nat} {p t tb : PTerm}
    {v2 s2 : String} {e1 e2 : Env} {r1 r2 : Option Env}
    (hle : g1 + (g2 + 1) ≤ n + 1) (he : ERel e1 e2)
    (hpr : PairRel e1 e2 p t (.str v2) (.str s2))
    (h1 : unify g1 p t e1 = some r1)
    (hne : PTerm.str v2 ≠ PTerm.str s2) (hvq : is_var (.str v2) = true)
    (hlq : lookupB e2 v2 = none) (hvs2 : is_var (.str s2) = true)
    (hls2 : lookupB e2 s2 = some tb)
    (h2 : unify (g2 + 1) (.str v2) (.str s2) e2 = some r2) : SymOut r1 r2 := by
  rw [unify_step_deref_t hne hvq hlq hvs2 hls2] at h2
  refine IH g1 g2 p t (.str v2) tb e1 e2 r1 r2 (by omega) he ?_ h1 h2
  rcases hpr with ⟨hp, ht⟩ | ⟨hp, ht⟩
  · exact Or.inl ⟨hp, trel_deref_right he hvs2 hls2 ht⟩
  · exact Or.inr ⟨trel_deref_right he hvs2 hls2 hp, ht⟩

theorem unify_sym_red2_swap {n : Nat} (IH : SymIH n) {g1 g2 : Nat} {p t q b : PTerm}
    {s2 : String} {e1 e2 : Env} {r1 r2 : Option Env}
    (hle : g1 + (g2 + 1) ≤ n + 1) (he : ERel e1 e2)
    (hpr : PairRel e1 e2 p t q (.str s2))
    (h1 : unify g1 p t e1 = some r1)
    (hne : q ≠ .str s2) (hq : is_var q = false) (hvs2 : is_var (.str s2) = true)
    (hls2 : lookupB e2 s2 = some b)
    (h2 : unify (g2 + 1) q (.str s2) e2 = some r2) : SymOut r1 r2 := by
  rw [unify_step_deref_t_swap hne hq hvs2 hls2] at h2
  refine IH g1 g2 p t b q e1 e2 r1 r2 (by omega) he ?_ h1 h2
  rcases hpr with ⟨hp, ht⟩ | ⟨hp, ht⟩
  · exact Or.inr ⟨hp, trel_deref_right he hvs2 hls2 ht⟩
  · exact Or.inl ⟨trel_deref_right he hvs2 hls2 hp, ht⟩

theorem unify_sym_main : ∀ N : Nat, SymIH N := by
  intro N
  induction N with
  | zero =>
    intro g1 g2 p t q s e1 e2 r1 r2 hle he hpr h1 h2
    have hg1 : g1 = 0 := by omega
    subst hg1
    simp only [unify] at h1
    cases h1
  | succ n IH =>
    intro g1 g2 p t q s e1 e2 r1 r2 hle he hpr h1 h2
    cases g1 with
    | zero =>
      simp only [unify] at h1
      cases h1
    | succ g1' =>
      cases g2 with
      | zero =>
        simp only [unify] at h2
        cases h2
      | succ g2' =>
        by_cases hpt : p = t
        · subst hpt
          by_cases hqs : q = s
          · subst hqs
            rw [unify_eq_refl] at h1
            rw [unify_eq_refl] at h2
            cases h1
            cases h2
            exact symout_succ he
          · by_cases hvq : is_var q = true
            · obtain ⟨v2, rfl⟩ := is_var_str hvq
              cases hlq : lookupB e2 v2 with
              | some b =>
                exact unify_sym_red2_derefq IH hle he hpr h1 hqs hvq hlq h2
              | none =>
                by_cases hvs : is_var s = true
                · obtain ⟨s2, rfl⟩ := is_var_str hvs
                  cases hls : lookupB e2 s2 with
                  | some tb =>
                    exact unify_sym_red2_derefs IH hle he hpr h1 hqs hvq hlq hvs hls h2
                  | none =>
                    exfalso
                    have hm : Meets e2 (.str v2) (.str s2) := by
                      rcases hpr with ⟨hp1, hp2⟩ | ⟨hp1, hp2⟩
                      · exact trel_common_meets he hp1 hp2
                      · exact trel_common_meets he hp2 hp1
                    obtain ⟨c, hc1, hc2⟩ := hm
                    exact hqs (by rw [← reach_unbound hlq hc1, ← reach_unbound hls hc2])
                · rw [Bool.not_eq_true] at hvs
                  exfalso
                  have hm : Meets e2 (.str v2) s := by
                    rcases hpr with ⟨hp1, hp2⟩ | ⟨hp1, hp2⟩
                    · exact trel_common_meets he hp1 hp2
                    · exact trel_common_meets he hp2 hp1
                  obtain ⟨c, hc1, hc2⟩ := hm
                  have h1c := reach_unbound hlq hc1
                  have h2c := reach_const hc2 hvs
                  rw [h1c] at h2c
                  exact hqs h2c
            · rw [Bool.not_eq_true] at hvq
              by_cases hvs : is_var s = true
              · obtain ⟨s2, rfl⟩ := is_var_str hvs
                cases hls : lookupB e2 s2 with
                | some b =>
                  exact unify_sym_red2_swap IH hle he hpr h1 hqs hvq hvs hls h2
                | none =>
                  exfalso
                  have hm : Meets e2 q (.str s2) := by
                    rcases hpr with ⟨hp1, hp2⟩ | ⟨hp1, hp2⟩
                    · exact trel_common_meets he hp1 hp2
                    · exact trel_common_meets he hp2 hp1
                  obtain ⟨c, hc1, hc2⟩ := hm
                  have h1c := reach_const hc1 hvq
                  have h2c := reach_unbound hls hc2
                  rw [h1c] at h2c
                  exact hqs h2c
              · rw [Bool.not_eq_true] at hvs
                exfalso
                have hm : Meets e2 q s := by
                  rcases hpr with ⟨hp1, hp2⟩ | ⟨hp1, hp2⟩
                  · exact trel_common_meets he hp1 hp2
                  · exact trel_common_meets he hp2 hp1
                obtain ⟨c, hc1, hc2⟩ := hm
                have h1c := reach_const hc1 hvq
                have h2c := reach_const hc2 hvs
                rw [h1c] at h2c
                exact hqs h2c
        · by_cases hvp : is_var p = true
          · obtain ⟨v1, rfl⟩ := is_var_str hvp
            cases hlp : lookupB e1 v1 with
            | some b =>
              exact unify_sym_red1_derefp IH hle he hpr hpt hvp hlp h1 h2
            | none =>
              by_cases hvt : is_var t = true
              · obtain ⟨w1, rfl⟩ := is_var_str hvt
                cases hlt : lookupB e1 w1 with
                | some tb =>
                  exact unify_sym_red1_dereft IH hle he hpr hpt hvp hlp hvt hlt h1 h2
                | none =>
                  by_cases hqs : q = s
                  · exfalso
                    subst hqs
                    have hm : Meets e1 (.str v1) (.str w1) := by
                      rcases hpr with ⟨hp1, hp2⟩ | ⟨hp1, hp2⟩ <;>
                        exact trel_common_meets1 he hp1 hp2
                    obtain ⟨c, hc1, hc2⟩ := hm
                    exact hpt (by rw [← reach_unbound hlp hc1, ← reach_unbound hlt hc2])
                  · by_cases hvq : is_var q = true
                    · obtain ⟨v2, rfl⟩ := is_var_str hvq
                      cases hlq : lookupB e2 v2 with
                      | some b =>
                        exact unify_sym_red2_derefq IH hle he hpr h1 hqs hvq hlq h2
                      | none =>
                        by_cases hvs : is_var s = true
                        · obtain ⟨s2, rfl⟩ := is_var_str hvs
                          cases hls : lookupB e2 s2 with
                          | some tb =>
                            exact unify_sym_red2_derefs IH hle he hpr h1 hqs hvq hlq hvs hls h2
                          | none =>
                            rw [unify_bind_vv hpt hvp hlp hvt hlt] at h1
                            rw [unify_bind_vv hqs hvq hlq hvs hls] at h2
                            cases h1
                            cases h2
                            refine symout_succ (erel_bind_vv he hvp hvt hvq hvs hlp hlt hlq hls
                              (fun hh => hpt (by rw [hh])) (fun hh => hqs (by rw [hh])) ?_)
                            rcases hpr with ⟨hp1, hp2⟩ | ⟨hp1, hp2⟩
                            · exact Or.inl ⟨trel_unb_unb_meets hlp hlq hp1,
                                trel_unb_unb_meets hlt hls hp2⟩
                            · exact Or.inr ⟨trel_unb_unb_meets hlp hls hp1,
                                trel_unb_unb_meets hlt hlq hp2⟩
                        · rw [Bool.not_eq_true] at hvs
                          exfalso
                          rcases hpr with ⟨hp1, hp2⟩ | ⟨hp1, hp2⟩
                          · exact trel_var_unb_nonvar hvt hlt hvs hp2
                          · exact trel_var_unb_nonvar hvp hlp hvs hp1
                    · rw [Bool.not_eq_true] at hvq
                      by_cases hvs : is_var s = true
                      · obtain ⟨s2, rfl⟩ := is_var_str hvs
                        cases hls : lookupB e2 s2 with
                        | some b =>
                          exact unify_sym_red2_swap IH hle he hpr h1 hqs hvq hvs hls h2
                        | none =>
                          exfalso
                          rcases hpr with ⟨hp1, hp2⟩ | ⟨hp1, hp2⟩
                          · exact trel_var_unb_nonvar hvp hlp hvq hp1
                          · exact trel_var_unb_nonvar hvt hlt hvq hp2
                      · rw [Bool.not_eq_true] at hvs
                        exfalso
                        rcases hpr with ⟨hp1, hp2⟩ | ⟨hp1, hp2⟩
                        · exact trel_var_unb_nonvar hvp hlp hvq hp1
                        · exact trel_var_unb_nonvar hvp hlp hvs hp1
              · rw [Bool.not_eq_true] at hvt
                by_cases hqs : q = s
                · exfalso
                  subst hqs
                  have hm : Meets e1 (.str v1) t := by
                    rcases hpr with ⟨hp1, hp2⟩ | ⟨hp1, hp2⟩ <;>
                      exact trel_common_meets1 he hp1 hp2
                  obtain ⟨c, hc1, hc2⟩ := hm
                  have h1c := reach_unbound hlp hc1
                  have h2c := reach_const hc2 hvt
                  rw [h1c] at h2c
                  exact hpt h2c
                · by_cases hvq : is_var q = true
                  · obtain ⟨v2, rfl⟩ := is_var_str hvq
                    cases hlq : lookupB e2 v2 with
                    | some b =>
                      exact unify_sym_red2_derefq IH hle he hpr h1 hqs hvq hlq h2
                    | none =>
                      by_cases hvs : is_var s = true
                      · obtain ⟨s2, rfl⟩ := is_var_str hvs
                        cases hls : lookupB e2 s2 with
                        | some tb =>
                          exact unify_sym_red2_derefs IH hle he hpr h1 hqs hvq hlq hvs hls h2
                        | none =>
                          exfalso
                          rcases hpr with ⟨hp1, hp2⟩ | ⟨hp1, hp2⟩
                          · exact trel_nonvar_var_unb hvt hvs hls hp2
                          · exact trel_nonvar_var_unb hvt hvq hlq hp2
                      · rw [Bool.not_eq_true] at hvs
                        rcases hpr with ⟨hp1, hp2⟩ | ⟨hp1, hp2⟩
                        · have hts := trel_nonvar_eq hvt hvs hp2
                          rw [unify_bind_va hpt hvp hlp hvt] at h1
                          rw [unify_bind_va hqs hvq hlq hvs] at h2
                          cases h1
                          cases h2
                          refine symout_succ ?_
                          rw [← hts]
                          exact erel_bind_va he hvp hvq hlp hlq hvt
                            (trel_unb_unb_meets hlp hlq hp1)
                        · exfalso
                          exact trel_var_unb_nonvar hvp hlp hvs hp1
                  · rw [Bool.not_eq_true] at hvq
                    by_cases hvs : is_var s = true
                    · obtain ⟨s2, rfl⟩ := is_var_str hvs
                      cases hls : lookupB e2 s2 with
                      | some b =>
                        exact unify_sym_red2_swap IH hle he hpr h1 hqs hvq hvs hls h2
                      | none =>
                        rcases hpr with ⟨hp1, hp2⟩ | ⟨hp1, hp2⟩
                        · exfalso
                          exact trel_var_unb_nonvar hvp hlp hvq hp1
                        · have htq := trel_nonvar_eq hvt hvq hp2
                          rw [unify_bind_va hpt hvp hlp hvt] at h1
                          rw [unify_bind_rev hqs hvq hvs hls] at h2
                          cases h1
                          cases h2
                          refine symout_succ ?_
                          rw [← htq]
                          exact erel_bind_va he hvp hvs hlp hls hvt
                            (trel_unb_unb_meets hlp hls hp1)
                    · rw [Bool.not_eq_true] at hvs
                      exfalso
                      rcases hpr with ⟨hp1, hp2⟩ | ⟨hp1, hp2⟩
                      · exact trel_var_unb_nonvar hvp hlp hvq hp1
                      · exact trel_var_unb_nonvar hvp hlp hvs hp1
          · rw [Bool.not_eq_true] at hvp
            by_cases hvt : is_var t = true
            · obtain ⟨w1, rfl⟩ := is_var_str hvt
              cases hlt : lookupB e1 w1 with
              | some tb =>
                exact unify_sym_red1_swap IH hle he hpr hpt hvp hvt hlt h1 h2
              | none =>
                by_cases hqs : q = s
                · exfalso
                  subst hqs
                  have hm : Meets e1 p (.str w1) := by
                    rcases hpr with ⟨hp1, hp2⟩ | ⟨hp1, hp2⟩ <;>
                      exact trel_common_meets1 he hp1 hp2
                  obtain ⟨c, hc1, hc2⟩ := hm
                  have h1c := reach_const hc1 hvp
                  have h2c := reach_unbound hlt hc2
                  rw [h1c] at h2c
                  exact hpt h2c
                · by_cases hvq : is_var q = true
                  · obtain ⟨v2, rfl⟩ := is_var_str hvq
                    cases hlq : lookupB e2 v2 with
                    | some b =>
                      exact unify_sym_red2_derefq IH hle he hpr h1 hqs hvq hlq h2
                    | none =>
                      by_cases hvs : is_var s = true
                      · obtain ⟨s2, rfl⟩ := is_var_str hvs
                        cases hls : lookupB e2 s2 with
                        | some tb =>
                          exact unify_sym_red2_derefs IH hle he hpr h1 hqs hvq hlq hvs hls h2
                        | none =>
                          exfalso
                          rcases hpr with ⟨hp1, hp2⟩ | ⟨hp1, hp2⟩
                          · exact trel_nonvar_var_unb hvp hvq hlq hp1
                          · exact trel_nonvar_var_unb hvp hvs hls hp1
                      · rw [Bool.not_eq_true] at hvs
                        rcases hpr with ⟨hp1, hp2⟩ | ⟨hp1, hp2⟩
                        · exfalso
                          exact trel_nonvar_var_unb hvp hvq hlq hp1
                        · have hps := trel_nonvar_eq hvp hvs hp1
                          rw [unify_bind_rev hpt hvp hvt hlt] at h1
                          rw [unify_bind_va hqs hvq hlq hvs] at h2
                          cases h1
                          cases h2
                          refine symout_succ ?_
                          rw [← hps]
                          exact erel_bind_va he hvt hvq hlt hlq hvp
                            (trel_unb_unb_meets hlt hlq hp2)
                  · rw [Bool.not_eq_true] at hvq
                    by_cases hvs : is_var s = true
                    · obtain ⟨s2, rfl⟩ := is_var_str hvs
                      cases hls : lookupB e2 s2 with
                      | some b =>
                        exact unify_sym_red2_swap IH hle he hpr h1 hqs hvq hvs hls h2
                      | none =>
                        rcases hpr with ⟨hp1, hp2⟩ | ⟨hp1, hp2⟩
                        · have hpq := trel_nonvar_eq hvp hvq hp1
                          rw [unify_bind_rev hpt hvp hvt hlt] at h1
                          rw [unify_bind_rev hqs hvq hvs hls] at h2
                          cases h1
                          cases h2
                          refine symout_succ ?_
                          rw [← hpq]
                          exact erel_bind_va he hvt hvs hlt hls hvp
                            (trel_unb_unb_meets hlt hls hp2)
                        · exfalso
                          exact trel_nonvar_var_unb hvp hvs hls hp1
                    · rw [Bool.not_eq_true] at hvs
                      exfalso
                      rcases hpr with ⟨hp1, hp2⟩ | ⟨hp1, hp2⟩
                      · exact trel_var_unb_nonvar hvt hlt hvs hp2
                      · exact trel_var_unb_nonvar hvt hlt hvq hp2
            · rw [Bool.not_eq_true] at hvt
              by_cases hqs : q = s
              · exfalso
                subst hqs
                have hm : Meets e1 p t := by
                  rcases hpr with ⟨hp1, hp2⟩ | ⟨hp1, hp2⟩ <;>
                    exact trel_common_meets1 he hp1 hp2
                obtain ⟨c, hc1, hc2⟩ := hm
                have h1c := reach_const hc1 hvp
                have h2c := reach_const hc2 hvt
                rw [h1c] at h2c
                exact hpt h2c
              · by_cases hvq : is_var q = true
                · obtain ⟨v2, rfl⟩ := is_var_str hvq
                  cases hlq : lookupB e2 v2 with
                  | some b =>
                    exact unify_sym_red2_derefq IH hle he hpr h1 hqs hvq hlq h2
                  | none =>
                    by_cases hvs : is_var s = true
                    · obtain ⟨s2, rfl⟩ := is_var_str hvs
                      cases hls : lookupB e2 s2 with
                      | some tb =>
                        exact unify_sym_red2_derefs IH hle he hpr h1 hqs hvq hlq hvs hls h2
                      | none =>
                        exfalso
                        rcases hpr with ⟨hp1, hp2⟩ | ⟨hp1, hp2⟩
                        · exact trel_nonvar_var_unb hvp hvq hlq hp1
                        · exact trel_nonvar_var_unb hvp hvs hls hp1
                    · rw [Bool.not_eq_true] at hvs
                      exfalso
                      rcases hpr with ⟨hp1, hp2⟩ | ⟨hp1, hp2⟩
                      · exact trel_nonvar_var_unb hvp hvq hlq hp1
                      · exact trel_nonvar_var_unb hvt hvq hlq hp2
                · rw [Bool.not_eq_true] at hvq
                  by_cases hvs : is_var s = true
                  · obtain ⟨s2, rfl⟩ := is_var_str hvs
                    cases hls : lookupB e2 s2 with
                    | some b =>
                      exact unify_sym_red2_swap IH hle he hpr h1 hqs hvq hvs hls h2
                    | none =>
                      exfalso
                      rcases hpr with ⟨hp1, hp2⟩ | ⟨hp1, hp2⟩
                      · exact trel_nonvar_var_unb hvt hvs hls hp2
                      · exact trel_nonvar_var_unb hvp hvs hls hp1
                  · rw [Bool.not_eq_true] at hvs
                    rcases hpr with ⟨hp1, hp2⟩ | ⟨hp1, hp2⟩
                    · have hpq := trel_nonvar_eq hvp hvq hp1
                      have hts := trel_nonvar_eq hvt hvs hp2
                      subst hpq
                      subst hts
                      cases p with
                      | str a =>
                        cases t with
                        | str b2 =>
                          rw [unify_fail_str_str hpt hvp hvt] at h1
                          rw [unify_fail_str_str hpt hvp hvt] at h2
                          cases h1
                          cases h2
                          exact symout_fail
                        | tup ts2 =>
                          rw [unify_fail_str_tup hvp] at h1
                          rw [unify_fail_str_tup hvp] at h2
                          cases h1
                          cases h2
                          exact symout_fail
                      | tup ps2 =>
                        cases t with
                        | str b2 =>
                          rw [unify_fail_tup_str hvt] at h1
                          rw [unify_fail_tup_str hvt] at h2
                          cases h1
                          cases h2
                          exact symout_fail
                        | tup ts2 =>
                          rw [unify_tup_tup hpt] at h1
                          rw [unify_tup_tup hpt] at h2
                          by_cases hlen : ps2.length = ts2.length
                          · rw [if_pos hlen] at h1
                            rw [if_pos hlen] at h2
                            exact unify_sym_list IH ps2 ts2 ps2 ts2 g1' g2' e1 e2 r1 r2
                              (by omega) he (Or.inl ⟨rfl, rfl⟩) h1 h2
                          · rw [if_neg hlen] at h1
                            rw [if_neg hlen] at h2
                            cases h1
                            cases h2
                            exact symout_fail
                    · have htq := trel_nonvar_eq hvt hvq hp2
                      have hps := trel_nonvar_eq hvp hvs hp1
                      subst htq
                      subst hps
                      cases p with
                      | str a =>
                        cases t with
                        | str b2 =>
                          have hpt2 : PTerm.str b2 ≠ PTerm.str a := fun hh => hpt hh.symm
                          rw [unify_fail_str_str hpt hvp hvt] at h1
                          rw [unify_fail_str_str hpt2 hvt hvp] at h2
                          cases h1
                          cases h2
                          exact symout_fail
                        | tup ts2 =>
                          rw [unify_fail_str_tup hvp] at h1
                          rw [unify_fail_tup_str hvp] at h2
                          cases h1
                          cases h2
                          exact symout_fail
                      | tup ps2 =>
                        cases t with
                        | str b2 =>
                          rw [unify_fail_tup_str hvt] at h1
                          rw [unify_fail_str_tup hvt] at h2
                          cases h1
                          cases h2
                          exact symout_fail
                        | tup ts2 =>
                          have hpt2 : PTerm.tup ts2 ≠ PTerm.tup ps2 := fun hh => hpt hh.symm
                          rw [unify_tup_tup hpt] at h1
                          rw [unify_tup_tup hpt2] at h2
                          by_cases hlen : ps2.length = ts2.length
                          · rw [if_pos hlen] at h1
                            rw [if_pos hlen.symm] at h2
                            exact unify_sym_list IH ps2 ts2 ts2 ps2 g1' g2' e1 e2 r1 r2
                              (by omega) he (Or.inr ⟨rfl, rfl⟩) h1 h2
                          · rw [if_neg hlen] at h1
                            rw [if_neg (fun hh => hlen hh.symm)] at h2
                            cases h1
                            cases h2
                            exact symout_fail

theorem lookupB_val_atomic {E : Env} (hE : ∀ p ∈ E, isAtomicT p.2 = true) :
    ∀ {s : String} {t : PTerm}, lookupB E s = some t → isAtomicT t = true := by
  induction E with
  | nil => intro s t h; cases h
  | cons kv rest ih =>
    intro s t h
    obtain ⟨k, v⟩ := kv
    simp only [lookupB] at h
    by_cases hk : k = s
    · rw [if_pos hk] at h
      cases h
      exact hE (k, t) (by simp)
    · rw [if_neg hk] at h
      exact ih (fun p hp => hE p (by simp [hp])) h

/-- On the atomic fragment, a terminating `unify` call succeeds exactly
when the two dereferencing chains are compatible. -/
theorem unify_char_atomic (E : Env) (hE : ∀ p ∈ E, isAtomicT p.2 = true) :
    ∀ (g : Nat) (X Y : PTerm) (r : Option Env), isAtomicT X = true → isAtomicT Y = true →
      unify g X Y E = some r → ((r.isSome = true) ↔ Compat E X Y) := by
  intro g
  induction g with
  | zero => intro X Y r _ _ h; cases h
  | succ n ih =>
    intro X Y r hX hY h
    by_cases hxy : X = Y
    · subst hxy
      have hr : r = some E := by simpa [unify] using h.symm
      subst hr
      simp only [Option.isSome_some, true_iff]
      exact Or.inl ⟨X, ReachT.refl X, ReachT.refl X⟩
    · cases X with
      | tup ts => simp [isAtomicT] at hX
      | str a =>
        cases Y with
        | tup _ => simp [isAtomicT] at hY
        | str b =>
          by_cases hva : is_var (.str a) = true
          · have h2 : unifyVarAux (unify n) (.str a) (.str b) E = some r := by
              simpa [unify, hxy, hva] using h
            simp only [unifyVarAux] at h2
            rw [if_neg hxy] at h2
            cases hla : lookupB E a with
            | some p =>
              rw [hla] at h2
              have hpatom : isAtomicT p = true := lookupB_val_atomic hE hla
              have hiff := ih p (.str b) r hpatom hY h2
              rw [hiff, ← compat_step hva hla]
            | none =>
              rw [hla] at h2
              by_cases hvb : is_var (.str b) = true
              · simp only [hvb, if_pos, ite_true] at h2
                cases hlb : lookupB E b with
                | some tb =>
                  rw [hlb] at h2
                  have htb : isAtomicT tb = true := lookupB_val_atomic hE hlb
                  have hiff := ih (.str a) tb r hX htb h2
                  rw [hiff]
                  exact Iff.symm
                    (Iff.trans compat_symm (Iff.trans (compat_step hvb hlb) compat_symm))
                | none =>
                  rw [hlb] at h2
                  have hr : r = some (E ++ [(a, PTerm.str b)]) := (Option.some.inj h2).symm
                  subst hr
                  simp only [Option.isSome_some, true_iff]
                  exact Or.inr (Or.inl ⟨a, ReachT.refl _, hva, hla⟩)
              · simp only [hvb, if_neg, ite_false] at h2
                have hr : r = some (E ++ [(a, PTerm.str b)]) := (Option.some.inj h2).symm
                subst hr
                simp only [Option.isSome_some, true_iff]
                exact Or.inr (Or.inl ⟨a, ReachT.refl _, hva, hla⟩)
          · by_cases hvb : is_var (.str b) = true
            · have h2 : unifyVarAux (unify n) (.str b) (.str a) E = some r := by
                simpa [unify, hxy, hva, hvb] using h
              simp only [unifyVarAux] at h2
              have hba : PTerm.str b ≠ PTerm.str a := fun hh => hxy hh.symm
              rw [if_neg hba] at h2
              cases hlb : lookupB E b with
              | some q =>
                rw [hlb] at h2
                have hqatom : isAtomicT q = true := lookupB_val_atomic hE hlb
                have hiff := ih q (.str a) r hqatom hX h2
                rw [hiff]
                exact Iff.symm
                  (Iff.trans compat_symm (compat_step hvb hlb))
              | none =>
                rw [hlb] at h2
                simp only [hva, if_neg, ite_false] at h2
                have hr : r = some (E ++ [(b, PTerm.str a)]) := (Option.some.inj h2).symm
                subst hr
                simp only [Option.isSome_some, true_iff]
                exact Or.inr (Or.inr ⟨b, ReachT.refl _, hvb, hlb⟩)
            · have hr : r = none := by
                simpa [unify, hxy, hva, hvb] using h.symm
              subst hr
              refine iff_of_false (by simp) ?_
              rintro (⟨c, hac, hbc⟩ | ⟨s, has, hsv, _⟩ | ⟨s, hbs, hsv, _⟩)
              · rw [reach_const hac (by simpa using hva)] at hbc
                exact hxy (reach_const hbc (by simpa using hvb))
              · rw [reach_const has (by simpa using hva)] at hsv
                exact absurd hsv (by simpa using hva)
              · rw [reach_const hbs (by simpa using hvb)] at hsv
                exact absurd hsv (by simpa using hvb)

/-- C7 (amended): unification symmetry-safety holds under a termination
proviso: for all terms `A`, `B` and every binding environment `E`, if
`unify(A, B, E)` and `unify(B, A, E)` both terminate, then `unify(A, B, E)`
succeeds iff `unify(B, A, E)` succeeds.  (Without the proviso the property
fails: see the counterexample below.)  Proven by the simulation
`unify_sym_main` between the two runs. -/
theorem unify_symmetric_terminating (A B : PTerm) (E : Env)
    (h1 : UTerminates A B E) (h2 : UTerminates B A E) :
    (USucc A B E ↔ USucc B A E) := by
  obtain ⟨g1, r1, hr1⟩ := h1
  obtain ⟨g2, r2, hr2⟩ := h2
  have hso := unify_sym_main (g1 + g2) g1 g2 A B B A E E r1 r2 (le_refl _)
    (erel_refl E) (Or.inr ⟨trel_refl E E A, trel_refl E E B⟩) hr1 hr2
  constructor
  · rintro ⟨g, F, hF⟩
    obtain ⟨f2, hf2, _⟩ := hso.1 F (unify_det hF hr1).symm
    exact ⟨g2, f2, by rw [hr2, hf2]⟩
  · rintro ⟨g, F, hF⟩
    obtain ⟨f1, hf1, _⟩ := hso.2 F (unify_det hF hr2).symm
    exact ⟨g1, f1, by rw [hr1, hf1]⟩

/-- Closed witness for `unify_symmetric_terminating`: both orientations of
`unify("?x", "?y")` terminate in `atomEnv`, so success is symmetric
there. -/
theorem unify_symmetric_terminating_witness :
    USucc (.str "?x") (.str "?y") atomEnv ↔ USucc (.str "?y") (.str "?x") atomEnv :=
  unify_symmetric_terminating (.str "?x") (.str "?y") atomEnv
    ⟨3, some [("?x", PTerm.str "c"), ("?y", PTerm.str "c")], by decide⟩
    ⟨3, some [("?x", PTerm.str "c"), ("?y", PTerm.str "c")], by decide⟩

/-- C7 counterexample: in `cycEnv`, `unify("?a", "?b")` succeeds at once
via the chain `?a → ?b`, while the swapped call `unify("?b", "?a")`
follows the cyclic chain `?b → ?c → ?b` and never returns (in Python, a
`RecursionError`): it does not succeed, so the unrestricted biconditional
is false. -/
theorem unify_symmetry_counterexample :
    USucc (.str "?a") (.str "?b") cycEnv ∧ ¬ USucc (.str "?b") (.str "?a") cycEnv := by
  constructor
  · exact ⟨2, cycEnv, by decide⟩
  · rintro ⟨g, F, hF⟩
    rw [(cycEnv_no_answer g).1] at hF
    cases hF

end PS
